import Mathlib

/-!
Verification of the Kent repertory scraper and query engine.

Shallow embedding of the Python sources:
  web scrapper/final_scrap.py  (KentRepertoryScraper.parse_lines, merge_data)
  web scrapper/scrap6.py       (parse_lines, textually identical parsing logic)
  web scrapper/data_process.py (HomeopathicDataProcessor: normalize_symptom_name,
                                process_data_structure, find_common_remedies,
                                get_remedy_details)

Python strings are modelled as `List Char` (ASCII fragment of the Python
semantics: lower/upper case folding, whitespace and the regex character
classes are modelled over ASCII, which covers the repertory data).
Python dicts are modelled as association lists in insertion order;
`dict.setdefault` and `d[k] = v` become `updA` and `setA` below.
-/

namespace Homeopath

abbrev Str := List Char

/-! ### Character classes (ASCII model of the Python classes) -/

/-- Python whitespace for `str.strip()` and the regex class `\s`:
space, tab, newline, carriage return, vertical tab, form feed. -/
def isSpC (c : Char) : Bool :=
  c.toNat == 32 || c.toNat == 9 || c.toNat == 10 || c.toNat == 13 ||
  c.toNat == 11 || c.toNat == 12

/-- The regex class `[A-Z]`. -/
def isUpperC (c : Char) : Bool := decide (65 ≤ c.toNat ∧ c.toNat ≤ 90)

/-- The regex class `[a-z]`. -/
def isLowerC (c : Char) : Bool := decide (97 ≤ c.toNat ∧ c.toNat ≤ 122)

/-- The regex class `[A-Za-z]`. -/
def isAlphaC (c : Char) : Bool := isUpperC c || isLowerC c

/-- The regex class `\d`. -/
def isDigitC (c : Char) : Bool := decide (48 ≤ c.toNat ∧ c.toNat ≤ 57)

/-- The regex word class `\w`, deciding `\b` boundaries. -/
def isWordC (c : Char) : Bool := isAlphaC c || isDigitC c || c == '_'

/-- The regex class `[A-Za-z-]` used for remedy tokens. -/
def isMedC (c : Char) : Bool := isAlphaC c || c == '-'

/-- ASCII model of Python `str.lower` on one character. -/
def lowerChar (c : Char) : Char :=
  if isUpperC c then Char.ofNat (c.toNat + 32) else c

/-- ASCII model of Python `str.upper` on one character (used by `capitalize`). -/
def upperChar (c : Char) : Char :=
  if isLowerC c then Char.ofNat (c.toNat - 32) else c

/-! ### Python string operations -/

/-- Python `str.lower()`. -/
def pyLower (s : Str) : Str := s.map lowerChar

/-- Python `str.strip()` (no argument: strip whitespace from both ends). -/
def pyStrip (s : Str) : Str := (s.dropWhile isSpC).rdropWhile isSpC

/-- Python `str.strip(chars)`. -/
def stripChars (cs : List Char) (s : Str) : Str :=
  (s.dropWhile (cs.contains ·)).rdropWhile (cs.contains ·)

/-- Python `str.rstrip('.')`. -/
def rstripDot (s : Str) : Str := s.rdropWhile (· == '.')

/-- Python `str.capitalize()`: first character upper-cased, the rest lower-cased. -/
def pyCapitalize : Str → Str
  | [] => []
  | c :: rest => upperChar c :: rest.map lowerChar

/-- Python substring test `needle in hay`, prefix at each position. -/
def startsWithL : Str → Str → Bool
  | [], _ => true
  | _ :: _, [] => false
  | a :: as, b :: bs => a == b && startsWithL as bs

/-- Python substring test `needle in hay`. -/
def containsSeq (needle : Str) : Str → Bool
  | [] => startsWithL needle []
  | c :: rest => startsWithL needle (c :: rest) || containsSeq needle rest

/-! ### Lexicographic string order (Python string comparison by code point) -/

/-- Python string `<=`: lexicographic comparison by code point. -/
def strLe : Str → Str → Bool
  | [], _ => true
  | _ :: _, [] => false
  | a :: as, b :: bs => if a.toNat < b.toNat then true
      else if b.toNat < a.toNat then false
      else strLe as bs

def strLeP (a b : Str) : Prop := strLe a b = true

instance : DecidableRel strLeP := fun a b => instDecidableEqBool (strLe a b) true

/-- Python `sorted(set(l))`: the sorted list of the distinct elements of `l`. -/
def canon (l : List Str) : List Str := List.insertionSort strLeP l.dedup

/-! ### Association lists (Python dicts in insertion order) -/

/-- First-occurrence lookup, Python `d[k]` / `k in d`. -/
def lookupA {β : Type} (k : Str) : List (Str × β) → Option β
  | [] => none
  | (k', v) :: rest => if k' = k then some v else lookupA k rest

/-- Python `d.setdefault(k, dflt)` followed by an in-place update of `d[k]`:
rewrite the value at `k` through `f`, inserting `f dflt` at the end when `k`
is absent. -/
def updA {β : Type} (k : Str) (dflt : β) (f : β → β) : List (Str × β) → List (Str × β)
  | [] => [(k, f dflt)]
  | (k', v) :: rest => if k' = k then (k', f v) :: rest else (k', v) :: updA k dflt f rest

/-- Python `d[k] = v`: replace the value in place, or append a new key. -/
def setA {β : Type} (k : Str) (v : β) : List (Str × β) → List (Str × β)
  | [] => [(k, v)]
  | (k', w) :: rest => if k' = k then (k', v) :: rest else (k', w) :: setA k v rest

/-! ### Scraper data structure: body part → symptom → sub-symptom → remedies -/

abbrev Leaf := List Str

abbrev SubMap := List (Str × Leaf)

abbrev SymMap := List (Str × SubMap)

abbrev Rep := List (Str × SymMap)

/-- `data[bp][sym][sub]` with a missing level read as the empty dict/list. -/
def leafOf (R : Rep) (bp sym sub : Str) : Leaf :=
  (lookupA sub ((lookupA sym ((lookupA bp R).getD [])).getD [])).getD []

/-- The leaf at `(bp, sym, sub)` when all three keys are present. -/
def leafP (R : Rep) (bp sym sub : Str) : Option Leaf :=
  (lookupA bp R).bind fun sm => (lookupA sym sm).bind fun sb => lookupA sub sb

/-! ### parse_lines (final_scrap.py lines 169-224, scrap6.py lines 29-83) -/

/-- `re.match(r'^p\.\s*\d+$', s)`.  Page lines come from
`text.split('\n')`, so they contain no newline and `$` is plain
end-of-string. -/
def isPageNum : Str → Bool
  | 'p' :: '.' :: rest =>
      let r := rest.dropWhile isSpC
      !r.isEmpty && r.all isDigitC
  | _ => false

/-- `re.match(r'^([A-Z][A-Z\s\-]+)(.*)$', line)`, returning the two groups.
The first group is one upper-case letter followed by the maximal nonempty run
of `[A-Z\s-]` (greedy; no backtracking is needed since `(.*)$` accepts any
rest on these newline-free lines); the second group is the rest of the
line. -/
def symptomSplit (s : Str) : Option (Str × Str) :=
  match s with
  | [] => none
  | c :: rest =>
    if isUpperC c then
      let run := rest.takeWhile (fun d => isUpperC d || isSpC d || d == '-')
      if run.isEmpty then none else some (c :: run, rest.drop run.length)
    else none

/-- `re.findall(r'\b[A-Za-z][A-Za-z-]{0,20}\.', s)`, scanning left to right,
non-overlapping.  A match is a letter at a `\b` boundary, the maximal run of
`[A-Za-z-]` (of length at most 20) and a literal period right after it.
`prevW` records whether the previous character was a word character; `fuel`
only bounds the recursion and is instantiated with the string length. -/
def findMedsAux : Nat → Bool → Str → List Str
  | 0, _, _ => []
  | _ + 1, _, [] => []
  | n + 1, prevW, c :: rest =>
    if !prevW && isAlphaC c then
      let run := rest.takeWhile isMedC
      match rest.drop run.length with
      | '.' :: rest2 =>
        if run.length ≤ 20 then (c :: run ++ ['.']) :: findMedsAux n false rest2
        else findMedsAux n (isWordC c) rest
      | _ => findMedsAux n (isWordC c) rest
    else findMedsAux n (isWordC c) rest

def findMeds (s : Str) : List Str := findMedsAux s.length false s

/-- `"general"`. -/
def genStr : Str := ['g', 'e', 'n', 'e', 'r', 'a', 'l']

/-- `m.rstrip('.').strip().capitalize()` applied to a raw remedy token. -/
def cleanMed (m : Str) : Str := pyCapitalize (pyStrip (rstripDot m))

/-- `data[bp].setdefault chain + extend(medicines)` from the emission step. -/
def addMeds (bp sym sub : Str) (meds : List Str) (data : Rep) : Rep :=
  updA bp [] (fun symMap =>
    updA sym [] (fun subMap =>
      updA sub [] (fun l => l ++ meds) subMap) symMap) data

/-- The sub-symptom / medicines-part split of a remainder: on the first `:`
when present (left side stripped of `' ,.'`, empty giving `"general"`),
otherwise `"general"` and the stripped remainder. -/
def splitRemainder (remainder : Str) : Str × Str :=
  if remainder.contains ':' then
    let subPart := remainder.takeWhile (· ≠ ':')
    let medsPart := (remainder.dropWhile (· ≠ ':')).tail
    let ss := stripChars [' ', ',', '.'] subPart
    (if ss.isEmpty then genStr else ss, medsPart)
  else
    (genStr, pyStrip remainder)

/-- Remainder processing shared by the symptom-header and continuation cases:
extract the sub-symptom and the remedy tokens, and emit when the current body
part, the current symptom, and the medicine list are all truthy (nonempty). -/
def processRemainder (curBp curSym : Option Str) (data : Rep) (remainder : Str) : Rep :=
  let sp := splitRemainder remainder
  let medicines := (findMeds sp.2).map cleanMed
  match curBp, curSym with
  | some bp, some sym =>
      if bp.isEmpty || sym.isEmpty || medicines.isEmpty then data
      else addMeds bp sym sp.1 medicines data
  | _, _ => data

/-- One iteration of the parse loop for a line that is not a body-part
boundary; returns the updated current symptom and data. -/
def parseStep (curBp curSym : Option Str) (data : Rep) (line : Str) : Option Str × Rep :=
  match symptomSplit line with
  | some (g1, g2) =>
      let sym := pyStrip g1
      (some sym, processRemainder curBp (some sym) data (pyStrip g2))
  | none =>
    match curSym with
    | some s =>
        if s.isEmpty then (curSym, data)
        else (curSym, processRemainder curBp curSym data line)
    | none => (curSym, data)

/-- The `while i < len(lines)` loop of `parse_lines`: a body-part name
followed by a page-number line consumes two lines and resets the symptom;
every other line goes through `parseStep`. -/
def parseLoop (bps : List Str) : Option Str → Option Str → Rep → List Str → Rep
  | _, _, data, [] => data
  | curBp, curSym, data, [line] =>
      (parseStep curBp curSym data line).2
  | curBp, curSym, data, line :: next :: rest =>
      if bps.contains line && isPageNum (pyLower next) then
        parseLoop bps (some line) none data rest
      else
        parseLoop bps curBp (parseStep curBp curSym data line).1
          (parseStep curBp curSym data line).2 (next :: rest)

/-- The final clean-duplicates pass: every leaf becomes `sorted(set(leaf))`. -/
def cleanRep (data : Rep) : Rep :=
  data.map fun bpP => (bpP.1, bpP.2.map fun symP => (symP.1, symP.2.map fun subP => (subP.1, canon subP.2)))

/-- `KentRepertoryScraper.parse_lines(lines, body_parts)` (final_scrap.py
lines 169-224; identical in scrap6.py lines 29-83). -/
def parse_lines (lines : List Str) (body_parts : List Str) : Rep :=
  cleanRep (parseLoop body_parts none none [] lines)

instance decEqSubMap : DecidableEq SubMap := inferInstance

instance decEqSymMap : DecidableEq SymMap := inferInstance

instance decEqRep : DecidableEq Rep := inferInstance

/-! ### merge_data (final_scrap.py lines 226-244)

The three nested `for` loops of `merge_data`; each level ensures the key
exists (with an empty dict / list default) and the leaf level replaces the
stored list by `sorted(set(existing) | set(medicines))`, which is
`canon (existing ++ medicines)`. -/

def foldSubs (m : SubMap) (subs : SubMap) : SubMap :=
  subs.foldl (fun sb p => updA p.1 [] (fun ex => canon (ex ++ p.2)) sb) m

def foldSyms (m : SymMap) (syms : SymMap) : SymMap :=
  syms.foldl (fun sm p => updA p.1 [] (fun sb => foldSubs sb p.2) sm) m

/-- `KentRepertoryScraper.merge_data(new_data)` as a function of the
accumulator `self.all_data`. -/
def merge_data (acc : Rep) (newData : Rep) : Rep :=
  newData.foldl (fun a p => updA p.1 [] (fun sm => foldSyms sm p.2) a) acc

/-! ### What a merge touches, and what it contributes -/

/-- The page has an entry for this sub-symptom. -/
def touchedSub (subs : SubMap) (sub : Str) : Prop := ∃ meds, (sub, meds) ∈ subs

/-- Some remedy list of the page at this sub-symptom contains `r`. -/
def bagSub (subs : SubMap) (sub r : Str) : Prop := ∃ meds, (sub, meds) ∈ subs ∧ r ∈ meds

def touchedSym (syms : SymMap) (sym sub : Str) : Prop :=
  ∃ sb, (sym, sb) ∈ syms ∧ touchedSub sb sub

def bagSym (syms : SymMap) (sym sub r : Str) : Prop :=
  ∃ sb, (sym, sb) ∈ syms ∧ bagSub sb sub r

def touchedRep (R : Rep) (bp sym sub : Str) : Prop :=
  ∃ sm, (bp, sm) ∈ R ∧ touchedSym sm sym sub

/-- The page map contributes remedy `r` at the leaf `(bp, sym, sub)`. -/
def pageMem (R : Rep) (bp sym sub r : Str) : Prop :=
  ∃ sm, (bp, sm) ∈ R ∧ bagSym sm sym sub r

/-- Number of occurrences of a remedy name in a list. -/
def countOcc (r : Str) (l : List Str) : Nat := l.countP (fun x => decide (x = r))

/-! ### Every leaf a parse or merge produces is nonempty, deduplicated, sorted -/

def NESub (sb : SubMap) : Prop := ∀ t ∈ sb, t.2 ≠ ([] : Leaf)

def NESym (sm : SymMap) : Prop := ∀ q ∈ sm, NESub q.2

def NERep (R : Rep) : Prop := ∀ p ∈ R, NESym p.2

/-- A leaf list that satisfies the C4 invariant. -/
def GoodLeaf (l : Leaf) : Prop := l ≠ [] ∧ l.Nodup ∧ List.Sorted strLeP l

/-- Every present leaf of the repertory satisfies the C4 invariant. -/
def GoodRep (R : Rep) : Prop :=
  ∀ bp sym sub l, leafP R bp sym sub = some l → GoodLeaf l

/-- The accumulation loop of `scrape_all_pages`: parse every page and merge
it into the accumulator, starting from the empty repertory. -/
def buildRep (pages : List (List Str × List Str)) : Rep :=
  pages.foldl (fun acc pg => merge_data acc (parse_lines pg.1 pg.2)) []

/-! ### The Scenario 1 page (claim C1) -/

def c1Lines : List Str :=
  ["HEAD".toList, "p. 109".toList,
   "PAIN: throbbing, worse motion: Bell. Nux-v.".toList]

def c1Bps : List Str := ["HEAD".toList]

/-! ### data_process.py: the normalizer (lines 27-75) -/

/-- The punctuation class of `re.sub(r'^[-:,.\s]+|[-:,.\s]+$', '', ·)`. -/
def isPunctC (c : Char) : Bool := c == '-' || c == ':' || c == ',' || c == '.' || isSpC c

/-- `re.sub(r'\s+', ' ', s)`: every maximal whitespace run becomes one space.
`prevSp` records whether the previous character was inside a run. -/
def collapseWS (prevSp : Bool) : Str → Str
  | [] => []
  | c :: rest =>
    if isSpC c then
      if prevSp then collapseWS true rest else ' ' :: collapseWS true rest
    else c :: collapseWS false rest

/-- `re.sub(r'^[-:,.\s]+|[-:,.\s]+$', '', s)`: the anchored alternatives
remove exactly the maximal leading and trailing runs of `[-:,.\s]`. -/
def stripPunct (s : Str) : Str := (s.dropWhile isPunctC).rdropWhile isPunctC

/-- The `normalizations` dict of `normalize_symptom_name`, in insertion
order; every value equals its key. -/
def normalizations : List (Str × Str) :=
  [("aching".toList, "aching".toList),
   ("burning".toList, "burning".toList),
   ("pain".toList, "pain".toList),
   ("throbbing".toList, "throbbing".toList),
   ("shooting".toList, "shooting".toList),
   ("stinging".toList, "stinging".toList),
   ("cramping".toList, "cramping".toList),
   ("inflammation".toList, "inflammation".toList),
   ("swelling".toList, "swelling".toList),
   ("numbness".toList, "numbness".toList),
   ("weakness".toList, "weakness".toList),
   ("anxiety".toList, "anxiety".toList),
   ("depression".toList, "depression".toList),
   ("irritability".toList, "irritability".toList),
   ("restlessness".toList, "restlessness".toList),
   ("fever".toList, "fever".toList),
   ("chills".toList, "chills".toList),
   ("nausea".toList, "nausea".toList),
   ("vomiting".toList, "vomiting".toList),
   ("diarrhea".toList, "diarrhea".toList),
   ("constipation".toList, "constipation".toList),
   ("cough".toList, "cough".toList),
   ("congestion".toList, "congestion".toList),
   ("discharge".toList, "discharge".toList),
   ("eruption".toList, "eruption".toList),
   ("itching".toList, "itching".toList),
   ("dryness".toList, "dryness".toList),
   ("moisture".toList, "moisture".toList)]

/-- `HomeopathicDataProcessor.normalize_symptom_name` (data_process.py lines
27-75): lowercase and strip, collapse whitespace runs, strip the punctuation
ends, then return the first `normalizations` value whose key occurs as a
substring, or the cleaned text. -/
def normalize_symptom_name (symptom : Str) : Str :=
  let s1 := pyStrip (pyLower symptom)
  let s2 := collapseWS false s1
  let s3 := stripPunct s2
  match normalizations.find? (fun kv => containsSeq kv.1 s3) with
  | some kv => kv.2
  | none => s3

/-! ### data_process.py: process_data_structure (lines 115-151)

`raw` is the loaded two-level JSON mapping body part → symptom → remedy
list; remedy values are modelled as string lists (the `isinstance(remedies,
str)` promotion branch wraps a bare string into a one-element list and is
subsumed by that model).  The processor starts from the `__init__` state:
empty `processed_data`, `remedy_index`, `symptom_index`. -/

abbrev Rep2 := List (Str × List (Str × List Str))

abbrev RemIdx := List (Str × List (Str × Str))

abbrev SymIdx := List (Str × List Str)

structure ProcOut where
  processed : Rep2
  remIdx : RemIdx
  symIdx : SymIdx
deriving DecidableEq

/-- Python `set.add` on a set modelled as a duplicate-free list. -/
def listInsert {α : Type} [DecidableEq α] (x : α) (l : List α) : List α :=
  if x ∈ l then l else l ++ [x]

/-- `clean_remedies`: keep `remedy.strip()` for every remedy whose stripped
form is truthy. -/
def cleanRemedies (remedies : List Str) : List Str :=
  remedies.filterMap fun r =>
    let t := pyStrip r
    if t.isEmpty then none else some t

/-- The body of the inner `for symptom, remedies in symptoms_dict.items()`
loop. -/
def procSym (bp : Str) (st : ProcOut) (symP : Str × List Str) : ProcOut :=
  if symP.2.isEmpty then st
  else
    let normalized := normalize_symptom_name symP.1
    let clean := cleanRemedies symP.2
    if clean.isEmpty then st
    else
      { processed := updA bp [] (setA normalized clean) st.processed
        remIdx := clean.foldl (fun ri r => updA r [] (listInsert (bp, normalized)) ri) st.remIdx
        symIdx := updA normalized [] (listInsert bp) st.symIdx }

/-- The body of the outer `for body_part, symptoms_dict in raw_data.items()`
loop: skip empty symptom dicts, otherwise create `processed[body_part] = {}`
and run the symptom loop. -/
def procBp (st : ProcOut) (bpP : Str × List (Str × List Str)) : ProcOut :=
  if bpP.2.isEmpty then st
  else bpP.2.foldl (procSym bpP.1) { st with processed := setA bpP.1 [] st.processed }

/-- `HomeopathicDataProcessor.process_data_structure(raw_data)` (lines
115-151), returning the processed structure together with the remedy and
symptom indices it builds. -/
def process_data_structure (raw : Rep2) : ProcOut :=
  raw.foldl procBp ⟨[], [], []⟩

/-! ### data_process.py: find_common_remedies (lines 153-192) -/

structure ScoreSt where
  scores : List (Str × Nat)
  locs : List (Str × List Str)
deriving DecidableEq

/-- The location string `f"{body_part}:{symptom}"`. -/
def mkLoc (bp sym : Str) : Str := bp ++ ':' :: sym

/-- `remedy_scores[remedy] += 1; remedy_matches[remedy].append(loc)` on the
two defaultdicts. -/
def bump (r loc : Str) (st : ScoreSt) : ScoreSt :=
  { scores := updA r 0 (· + 1) st.scores
    locs := updA r [] (· ++ [loc]) st.locs }

/-- `self.processed_data[bp][sym]` with missing keys read as empty. -/
def leafList (P : Rep2) (bp sym : Str) : List Str :=
  (lookupA sym ((lookupA bp P).getD [])).getD []

def bumpLeaf (loc : Str) (leaf : List Str) (st : ScoreSt) : ScoreSt :=
  leaf.foldl (fun st r => bump r loc st) st

/-- The first scoring loop: every `(body_part, symptom)` pair present in the
processed data credits every remedy occurrence at that leaf. -/
def loop1 (P : Rep2) (body_parts symptoms : List Str) (st : ScoreSt) : ScoreSt :=
  body_parts.foldl (fun st bp =>
    match lookupA bp P with
    | none => st
    | some symsMap =>
        symptoms.foldl (fun st sym =>
          match lookupA sym symsMap with
          | none => st
          | some leaf => bumpLeaf (mkLoc bp sym) leaf st) st) st

/-- The second loop (`Also check for remedies that match symptoms across
different body parts`): it walks `symptom_index` and credits a remedy only
when the location string is not yet recorded for it. -/
def loop2 (P : Rep2) (symIdx : SymIdx) (body_parts symptoms : List Str)
    (st : ScoreSt) : ScoreSt :=
  symptoms.foldl (fun st sym =>
    ((lookupA sym symIdx).getD []).foldl (fun st bp =>
      if bp ∈ body_parts then
        match lookupA sym ((lookupA bp P).getD []) with
        | some leaf =>
            leaf.foldl (fun st r =>
              if lookupA r st.locs = none ∨ mkLoc bp sym ∉ (lookupA r st.locs).getD []
              then bump r (mkLoc bp sym) st
              else st) st
        | none => st
      else st) st) st

structure Entry where
  name : Str
  score : Nat
  locs : List Str
  bodyParts : List Str
  symptoms : List Str
deriving DecidableEq

/-- Python `list(set(l))`, modelled with first-occurrence iteration order. -/
def listSet {α : Type} [DecidableEq α] (l : List α) : List α :=
  l.foldl (fun acc x => listInsert x acc) []

/-- `match.split(':')[0]`. -/
def splitColon0 (loc : Str) : Str := loc.takeWhile (· ≠ ':')

/-- `match.split(':')[1]`. -/
def splitColon1 (loc : Str) : Str :=
  ((loc.dropWhile (· ≠ ':')).tail).takeWhile (· ≠ ':')

/-- `sorted(remedy_scores.items(), key=lambda x: x[1], reverse=True)`. -/
def scoreDesc (a b : Str × Nat) : Prop := b.2 ≤ a.2

instance : DecidableRel scoreDesc := fun a b => Nat.decLe b.2 a.2

/-- The scores/matches state after the two scoring loops. -/
def queryState (P : Rep2) (symIdx : SymIdx) (body_parts symptoms : List Str) : ScoreSt :=
  loop2 P symIdx body_parts symptoms (loop1 P body_parts symptoms ⟨[], []⟩)

/-- `HomeopathicDataProcessor.find_common_remedies(body_parts, symptoms)`
(lines 153-192) as a function of `processed_data` and `symptom_index`. -/
def find_common_remedies (P : Rep2) (symIdx : SymIdx)
    (body_parts symptoms : List Str) : List Entry :=
  if body_parts.isEmpty && symptoms.isEmpty then []
  else
    let st := queryState P symIdx body_parts symptoms
    (List.insertionSort scoreDesc st.scores).map fun p =>
      { name := p.1
        score := p.2
        locs := (lookupA p.1 st.locs).getD []
        bodyParts := listSet (((lookupA p.1 st.locs).getD []).map splitColon0)
        symptoms := listSet (((lookupA p.1 st.locs).getD []).map splitColon1) }

/-! ### data_process.py: get_remedy_details (lines 214-232) -/

structure Details where
  name : Str
  bodyParts : List Str
  symptoms : List Str
  totalIndications : Nat
deriving DecidableEq

/-- `HomeopathicDataProcessor.get_remedy_details(remedy)` as a function of
`remedy_index`, returning the details **and the remedy index afterwards**:
line 230 evaluates `len(self.remedy_index[remedy])` on the
`defaultdict(set)`, so a remedy that is absent from the index is inserted
with an empty set as a side effect. -/
def get_remedy_details (remIdx : RemIdx) (remedy : Str) : Details × RemIdx :=
  match lookupA remedy remIdx with
  | some pairs =>
      ({ name := remedy
         bodyParts := listSet (pairs.map Prod.fst)
         symptoms := listSet (pairs.map Prod.snd)
         totalIndications := pairs.length }, remIdx)
  | none =>
      ({ name := remedy, bodyParts := [], symptoms := [], totalIndications := 0 },
       remIdx ++ [(remedy, [])])

/-! ### Score accounting for find_common_remedies -/

/-- `remedy_scores[r]` with the defaultdict default 0. -/
def scoreOf (st : ScoreSt) (r : Str) : Nat := (lookupA r st.scores).getD 0

/-- `remedy_matches[r]` with the defaultdict default `[]`. -/
def locsOf (st : ScoreSt) (r : Str) : List Str := (lookupA r st.locs).getD []

/-- Total credit loop 1 gives remedy `r`: one per occurrence of `r` in the
leaf of each queried `(body_part, symptom)` pair. -/
def pairScore (P : Rep2) (B S : List Str) (r : Str) : Nat :=
  (B.map (fun bp => (S.map (fun sym => countOcc r (leafList P bp sym))).sum)).sum

/-- The location strings loop 1 records for remedy `r`, in order. -/
def pairLocs (P : Rep2) (B S : List Str) (r : Str) : List Str :=
  (B.map (fun bp =>
    (S.map (fun sym =>
      List.replicate (countOcc r (leafList P bp sym)) (mkLoc bp sym))).flatten)).flatten

/-- The queried `(body_part, symptom)` combinations, in order. -/
def queryPairs (B S : List Str) : List (Str × Str) :=
  (B.map (fun bp => S.map (fun sym => (bp, sym)))).flatten

/-- How many queried combinations have a leaf containing remedy `r`. -/
def matchingPairCount (P : Rep2) (B S : List Str) (r : Str) : Nat :=
  (queryPairs B S).countP (fun q => decide (r ∈ leafList P q.1 q.2))

/-- The score the result of `find_common_remedies` reports for remedy `r`
(0 when `r` has no entry). -/
def resultScore (res : List Entry) (r : Str) : Nat :=
  ((res.find? (fun e => decide (e.name = r))).map Entry.score).getD 0

/-! ### The score assoc lists have duplicate-free keys -/

def KeysOK (st : ScoreSt) : Prop :=
  (st.scores.map Prod.fst).Nodup ∧ (st.locs.map Prod.fst).Nodup

/-! ### Claims C5, C8, C9 about the query engine -/

/-- The raw input exhibiting a duplicated remedy at one leaf. -/
def c5raw : Rep2 := [("head".toList, [("pain".toList, ["Bell".toList, "Bell".toList])])]

/-- A raw input with a single occurrence of each remedy. -/
def c9raw : Rep2 := [("head".toList, [("pain".toList, ["Bell".toList])])]

/-! ### Claim C7: pruning of empty body parts -/

/-- A raw input whose single body part has one symptom with no remedies. -/
def c7raw : Rep2 := [("head".toList, [("pain".toList, ([] : List Str))])]

/-- Space characters the collapse pass has already normalized: each space
character is the plain space `' '` and no two space characters are
adjacent. -/
def okSp (c : Char) : Bool := !(isSpC c) || (c == ' ')

def wsNormB : Str → Bool
  | [] => true
  | [c] => okSp c
  | c :: d :: rest => (okSp c && (!(isSpC c) || !(isSpC d))) && wsNormB (d :: rest)

/-- The first character of the list does not satisfy `isSpC`. -/
def headOk (l : Str) : Prop := ∀ c, l.head? = some c → isSpC c = false

/-- The cleaning pipeline of `normalize_symptom_name`: lowercase, strip,
collapse whitespace runs, strip punctuation ends. -/
def cleanSym (s : Str) : Str := stripPunct (collapseWS false (pyStrip (pyLower s)))

/-- The one-leaf page used to instantiate C3. -/
def c3A : Rep := [("HEAD".toList, [("PAIN".toList, [("general".toList, ["Bell".toList])])])]

/-! ### Lookup lemmas for the association-list operations -/

theorem lookupA_updA {β : Type} (k₀ k : Str) (d : β) (f : β → β) (l : List (Str × β)) :
    lookupA k (updA k₀ d f l) =
      if k₀ = k then some (f ((lookupA k₀ l).getD d)) else lookupA k l := by
  induction l with
  | nil =>
    by_cases h : k₀ = k <;> simp [updA, lookupA, h]
  | cons p rest ih =>
    obtain ⟨k', v⟩ := p
    by_cases h1 : k' = k₀
    · subst h1
      by_cases h2 : k' = k <;> simp [updA, lookupA, h2]
    · by_cases h2 : k₀ = k
      · subst h2
        simp [updA, lookupA, h1, ih, Ne.symm h1]
      · by_cases h3 : k' = k
        · subst h3
          simp [updA, lookupA, h1, h2]
        · simp [updA, lookupA, h1, h2, h3, ih]

theorem lookupA_mem {β : Type} {k : Str} {v : β} {l : List (Str × β)}
    (h : lookupA k l = some v) : (k, v) ∈ l := by
  induction l with
  | nil => simp [lookupA] at h
  | cons p rest ih =>
    obtain ⟨k', w⟩ := p
    by_cases h1 : k' = k
    · subst h1
      simp [lookupA] at h
      simp [h]
    · simp [lookupA, h1] at h
      exact List.mem_cons_of_mem _ (ih h)

theorem foldSubs_cons (m : SubMap) (p : Str × Leaf) (rest : SubMap) :
    foldSubs m (p :: rest) = foldSubs (updA p.1 [] (fun ex => canon (ex ++ p.2)) m) rest := rfl

theorem foldSyms_cons (m : SymMap) (p : Str × SubMap) (rest : SymMap) :
    foldSyms m (p :: rest) = foldSyms (updA p.1 [] (fun sb => foldSubs sb p.2) m) rest := rfl

theorem merge_data_cons (acc : Rep) (p : Str × SymMap) (rest : Rep) :
    merge_data acc (p :: rest) = merge_data (updA p.1 [] (fun sm => foldSyms sm p.2) acc) rest := rfl

theorem mem_canon {r : Str} {l : List Str} : r ∈ canon l ↔ r ∈ l := by
  simp [canon]

theorem canon_nodup (l : List Str) : (canon l).Nodup :=
  ((List.perm_insertionSort strLeP l.dedup).nodup_iff).mpr l.nodup_dedup

theorem canon_ne_nil {l : List Str} (h : l ≠ []) : canon l ≠ [] := by
  intro hc
  have hp : l.dedup.Perm ([] : List Str) := by
    have hper := List.perm_insertionSort strLeP l.dedup
    rw [show List.insertionSort strLeP l.dedup = canon l from rfl, hc] at hper
    exact hper.symm
  exact h ((List.dedup_eq_nil l).mp hp.eq_nil)

theorem bagSub_touched {subs : SubMap} {sub r : Str} (h : bagSub subs sub r) :
    touchedSub subs sub := by
  obtain ⟨meds, hm, _⟩ := h
  exact ⟨meds, hm⟩

theorem bagSym_touched {syms : SymMap} {sym sub r : Str} (h : bagSym syms sym sub r) :
    touchedSym syms sym sub := by
  obtain ⟨sb, hm, hb⟩ := h
  exact ⟨sb, hm, bagSub_touched hb⟩

theorem pageMem_touched {R : Rep} {bp sym sub r : Str} (h : pageMem R bp sym sub r) :
    touchedRep R bp sym sub := by
  obtain ⟨sm, hm, hb⟩ := h
  exact ⟨sm, hm, bagSym_touched hb⟩

theorem leafOf_eq (R : Rep) (bp sym sub : Str) :
    leafOf R bp sym sub = (leafP R bp sym sub).getD [] := by
  cases h1 : lookupA bp R with
  | none => simp [leafOf, leafP, h1, lookupA]
  | some sm =>
    cases h2 : lookupA sym sm with
    | none => simp [leafOf, leafP, h1, h2, lookupA]
    | some sb => simp [leafOf, leafP, h1, h2]

/-! ### Leaf characterization of the three merge levels -/

theorem foldSubs_untouched (subs : SubMap) (m : SubMap) (sub : Str)
    (h : ¬ touchedSub subs sub) :
    lookupA sub (foldSubs m subs) = lookupA sub m := by
  induction subs generalizing m with
  | nil => rfl
  | cons p rest ih =>
    have hp : p.1 ≠ sub := by
      intro he
      exact h ⟨p.2, by rw [← he]; exact List.mem_cons_self _ _⟩
    have hrest : ¬ touchedSub rest sub := by
      intro ⟨meds, hm⟩
      exact h ⟨meds, List.mem_cons_of_mem _ hm⟩
    rw [foldSubs_cons, ih _ hrest, lookupA_updA, if_neg hp]

theorem foldSubs_touched (subs : SubMap) (m : SubMap) (sub : Str)
    (h : touchedSub subs sub) :
    ∃ l, lookupA sub (foldSubs m subs) = some l ∧ (∃ src, l = canon src) ∧
      ∀ r, r ∈ l ↔ (r ∈ (lookupA sub m).getD [] ∨ bagSub subs sub r) := by
  induction subs generalizing m with
  | nil => exact absurd h (by rintro ⟨meds, hm⟩; simp at hm)
  | cons p rest ih =>
    by_cases htr : touchedSub rest sub
    · obtain ⟨l, hl, hc, hm⟩ := ih htr (m := updA p.1 [] (fun ex => canon (ex ++ p.2)) m)
      refine ⟨l, by rw [foldSubs_cons]; exact hl, hc, ?_⟩
      intro r
      rw [hm r, lookupA_updA]
      by_cases hp : p.1 = sub
      · rw [if_pos hp]
        subst hp
        have hbag : bagSub (p :: rest) p.1 r ↔ (r ∈ p.2 ∨ bagSub rest p.1 r) := by
          constructor
          · rintro ⟨meds, hmem, hr⟩
            rcases List.mem_cons.mp hmem with he | ht
            · left
              have hme : meds = p.2 := congrArg Prod.snd he
              rwa [hme] at hr
            · exact Or.inr ⟨meds, ht, hr⟩
          · rintro (hr | ⟨meds, ht, hr⟩)
            · exact ⟨p.2, List.mem_cons_self _ _, hr⟩
            · exact ⟨meds, List.mem_cons_of_mem _ ht, hr⟩
        simp only [Option.getD_some, mem_canon, List.mem_append, hbag]
        tauto
      · rw [if_neg hp]
        have hbag : bagSub (p :: rest) sub r ↔ bagSub rest sub r := by
          constructor
          · rintro ⟨meds, hmem, hr⟩
            rcases List.mem_cons.mp hmem with he | ht
            · exact absurd (congrArg Prod.fst he.symm) hp
            · exact ⟨meds, ht, hr⟩
          · rintro ⟨meds, ht, hr⟩
            exact ⟨meds, List.mem_cons_of_mem _ ht, hr⟩
        rw [hbag]
    · have hp : p.1 = sub := by
        obtain ⟨meds, hmem⟩ := h
        rcases List.mem_cons.mp hmem with he | ht
        · exact congrArg Prod.fst he.symm
        · exact absurd ⟨meds, ht⟩ htr
      rw [foldSubs_cons, foldSubs_untouched rest _ sub htr, lookupA_updA, if_pos hp]
      refine ⟨_, rfl, ⟨_, rfl⟩, ?_⟩
      intro r
      have hbagF : ¬ bagSub rest sub r := fun hb => htr (bagSub_touched hb)
      have hbag : bagSub (p :: rest) sub r ↔ r ∈ p.2 := by
        constructor
        · rintro ⟨meds, hmem, hr⟩
          rcases List.mem_cons.mp hmem with he | ht
          · have hme : meds = p.2 := congrArg Prod.snd he
            rwa [hme] at hr
          · exact absurd ⟨meds, ht, hr⟩ hbagF
        · intro hr
          refine ⟨p.2, ?_, hr⟩
          rw [← hp]
          exact List.mem_cons_self _ _
      simp only [Option.getD_some, mem_canon, List.mem_append, hbag, hp]

theorem bind_base (m : SymMap) (sym sub : Str) :
    ((lookupA sym m).bind (lookupA sub)).getD [] =
      (lookupA sub ((lookupA sym m).getD [])).getD [] := by
  cases lookupA sym m <;> simp [lookupA]

theorem foldSyms_untouched (syms : SymMap) (m : SymMap) (sym sub : Str)
    (h : ¬ touchedSym syms sym sub) :
    (lookupA sym (foldSyms m syms)).bind (lookupA sub) =
      (lookupA sym m).bind (lookupA sub) := by
  induction syms generalizing m with
  | nil => rfl
  | cons p rest ih =>
    have hrest : ¬ touchedSym rest sym sub := by
      rintro ⟨sb, hm, ht⟩
      exact h ⟨sb, List.mem_cons_of_mem _ hm, ht⟩
    rw [foldSyms_cons, ih _ hrest, lookupA_updA]
    by_cases hp : p.1 = sym
    · rw [if_pos hp]
      have hns : ¬ touchedSub p.2 sub := by
        intro ht
        apply h
        refine ⟨p.2, ?_, ht⟩
        rw [← hp]
        exact List.mem_cons_self _ _
      rw [Option.some_bind, foldSubs_untouched _ _ _ hns]
      subst hp
      cases hacc : lookupA p.1 m <;> simp [lookupA]
    · rw [if_neg hp]

theorem foldSyms_touched (syms : SymMap) (m : SymMap) (sym sub : Str)
    (h : touchedSym syms sym sub) :
    ∃ l, (lookupA sym (foldSyms m syms)).bind (lookupA sub) = some l ∧
      (∃ src, l = canon src) ∧
      ∀ r, r ∈ l ↔
        (r ∈ ((lookupA sym m).bind (lookupA sub)).getD [] ∨ bagSym syms sym sub r) := by
  induction syms generalizing m with
  | nil =>
    obtain ⟨sb, hm, _⟩ := h
    simp at hm
  | cons p rest ih =>
    have hbagc : ∀ r, bagSym (p :: rest) sym sub r ↔
        ((p.1 = sym ∧ bagSub p.2 sub r) ∨ bagSym rest sym sub r) := by
      intro r
      constructor
      · rintro ⟨sb, hmem, hb⟩
        rcases List.mem_cons.mp hmem with he | ht
        · left
          have h1 : sym = p.1 := congrArg Prod.fst he
          have h2 : sb = p.2 := congrArg Prod.snd he
          exact ⟨h1.symm, h2 ▸ hb⟩
        · exact Or.inr ⟨sb, ht, hb⟩
      · rintro (⟨hp, hb⟩ | ⟨sb, ht, hb⟩)
        · refine ⟨p.2, ?_, hb⟩
          rw [← hp]
          exact List.mem_cons_self _ _
        · exact ⟨sb, List.mem_cons_of_mem _ ht, hb⟩
    by_cases htr : touchedSym rest sym sub
    · obtain ⟨l, hl, hc, hm⟩ := ih htr (m := updA p.1 [] (fun sb => foldSubs sb p.2) m)
      refine ⟨l, by rw [foldSyms_cons]; exact hl, hc, ?_⟩
      intro r
      rw [hm r, hbagc r]
      by_cases hp : p.1 = sym
      · have hlm : lookupA sym (updA p.1 [] (fun sb => foldSubs sb p.2) m) =
            some (foldSubs ((lookupA p.1 m).getD []) p.2) := by
          rw [lookupA_updA, if_pos hp]
        rw [hlm, Option.some_bind]
        have hbase : ((lookupA sym m).bind (lookupA sub)).getD [] =
            (lookupA sub ((lookupA p.1 m).getD [])).getD [] := by
          rw [hp, bind_base]
        by_cases hts : touchedSub p.2 sub
        · obtain ⟨l', hl', _, hmm⟩ := foldSubs_touched p.2 ((lookupA p.1 m).getD []) sub hts
          rw [hl']
          simp only [Option.getD_some]
          rw [hmm r, hbase]
          tauto
        · rw [foldSubs_untouched _ _ _ hts, hbase]
          have hnb : ¬ bagSub p.2 sub r := fun hb => hts (bagSub_touched hb)
          tauto
      · have hlm : lookupA sym (updA p.1 [] (fun sb => foldSubs sb p.2) m) =
            lookupA sym m := by
          rw [lookupA_updA, if_neg hp]
        rw [hlm]
        have hnh : ¬ (p.1 = sym ∧ bagSub p.2 sub r) := fun hx => hp hx.1
        tauto
    · obtain ⟨sb, hmem, hts0⟩ := h
      rcases List.mem_cons.mp hmem with he | ht
      · have hp : p.1 = sym := (congrArg Prod.fst he).symm
        have hsb : sb = p.2 := congrArg Prod.snd he
        have hts : touchedSub p.2 sub := hsb ▸ hts0
        rw [foldSyms_cons, foldSyms_untouched rest _ sym sub htr]
        have hlm : lookupA sym (updA p.1 [] (fun sb => foldSubs sb p.2) m) =
            some (foldSubs ((lookupA p.1 m).getD []) p.2) := by
          rw [lookupA_updA, if_pos hp]
        rw [hlm, Option.some_bind]
        obtain ⟨l', hl', hc', hmm⟩ := foldSubs_touched p.2 ((lookupA p.1 m).getD []) sub hts
        refine ⟨l', hl', hc', ?_⟩
        intro r
        rw [hmm r, hbagc r]
        have hbase : ((lookupA sym m).bind (lookupA sub)).getD [] =
            (lookupA sub ((lookupA p.1 m).getD [])).getD [] := by
          rw [hp, bind_base]
        have hnb : ¬ bagSym rest sym sub r := fun hb => htr (bagSym_touched hb)
        rw [hbase]
        tauto
      · exact absurd ⟨sb, ht, hts0⟩ htr

theorem leafP_base (acc : Rep) (bp sym sub : Str) :
    (leafP acc bp sym sub).getD [] =
      ((lookupA sym ((lookupA bp acc).getD [])).bind (lookupA sub)).getD [] := by
  unfold leafP
  cases lookupA bp acc <;> simp [lookupA]

theorem merge_data_untouched (newData : Rep) (acc : Rep) (bp sym sub : Str)
    (h : ¬ touchedRep newData bp sym sub) :
    leafP (merge_data acc newData) bp sym sub = leafP acc bp sym sub := by
  induction newData generalizing acc with
  | nil => rfl
  | cons p rest ih =>
    have hrest : ¬ touchedRep rest bp sym sub := by
      rintro ⟨sm, hm, ht⟩
      exact h ⟨sm, List.mem_cons_of_mem _ hm, ht⟩
    rw [merge_data_cons, ih _ hrest]
    unfold leafP
    rw [lookupA_updA]
    by_cases hp : p.1 = bp
    · rw [if_pos hp]
      have hns : ¬ touchedSym p.2 sym sub := by
        intro ht
        apply h
        refine ⟨p.2, ?_, ht⟩
        rw [← hp]
        exact List.mem_cons_self _ _
      rw [Option.some_bind, foldSyms_untouched _ _ _ _ hns]
      subst hp
      cases hacc : lookupA p.1 acc <;> simp [lookupA]
    · rw [if_neg hp]

theorem merge_data_touched (newData : Rep) (acc : Rep) (bp sym sub : Str)
    (h : touchedRep newData bp sym sub) :
    ∃ l, leafP (merge_data acc newData) bp sym sub = some l ∧
      (∃ src, l = canon src) ∧
      ∀ r, r ∈ l ↔
        (r ∈ (leafP acc bp sym sub).getD [] ∨ pageMem newData bp sym sub r) := by
  induction newData generalizing acc with
  | nil =>
    obtain ⟨sm, hm, _⟩ := h
    simp at hm
  | cons p rest ih =>
    have hbagc : ∀ r, pageMem (p :: rest) bp sym sub r ↔
        ((p.1 = bp ∧ bagSym p.2 sym sub r) ∨ pageMem rest bp sym sub r) := by
      intro r
      constructor
      · rintro ⟨sm, hmem, hb⟩
        rcases List.mem_cons.mp hmem with he | ht
        · left
          have h1 : bp = p.1 := congrArg Prod.fst he
          have h2 : sm = p.2 := congrArg Prod.snd he
          exact ⟨h1.symm, h2 ▸ hb⟩
        · exact Or.inr ⟨sm, ht, hb⟩
      · rintro (⟨hp, hb⟩ | ⟨sm, ht, hb⟩)
        · refine ⟨p.2, ?_, hb⟩
          rw [← hp]
          exact List.mem_cons_self _ _
        · exact ⟨sm, List.mem_cons_of_mem _ ht, hb⟩
    by_cases htr : touchedRep rest bp sym sub
    · obtain ⟨l, hl, hc, hm⟩ := ih (updA p.1 [] (fun sm => foldSyms sm p.2) acc) htr
      refine ⟨l, by rw [merge_data_cons]; exact hl, hc, ?_⟩
      intro r
      rw [hm r, hbagc r]
      by_cases hp : p.1 = bp
      · have hlm : leafP (updA p.1 [] (fun sm => foldSyms sm p.2) acc) bp sym sub =
            (lookupA sym (foldSyms ((lookupA p.1 acc).getD []) p.2)).bind (lookupA sub) := by
          unfold leafP
          rw [lookupA_updA, if_pos hp, Option.some_bind]
        rw [hlm]
        have hbase : (leafP acc bp sym sub).getD [] =
            ((lookupA sym ((lookupA p.1 acc).getD [])).bind (lookupA sub)).getD [] := by
          rw [hp, leafP_base]
        by_cases hts : touchedSym p.2 sym sub
        · obtain ⟨l', hl', _, hmm⟩ := foldSyms_touched p.2 ((lookupA p.1 acc).getD []) sym sub hts
          rw [hl']
          simp only [Option.getD_some]
          rw [hmm r, hbase]
          tauto
        · rw [foldSyms_untouched _ _ _ _ hts, hbase]
          have hnb : ¬ bagSym p.2 sym sub r := fun hb => hts (bagSym_touched hb)
          tauto
      · have hlm : leafP (updA p.1 [] (fun sm => foldSyms sm p.2) acc) bp sym sub =
            leafP acc bp sym sub := by
          unfold leafP
          rw [lookupA_updA, if_neg hp]
        rw [hlm]
        have hnh : ¬ (p.1 = bp ∧ bagSym p.2 sym sub r) := fun hx => hp hx.1
        tauto
    · obtain ⟨sm, hmem, hts0⟩ := h
      rcases List.mem_cons.mp hmem with he | ht
      · have hp : p.1 = bp := (congrArg Prod.fst he).symm
        have hsm : sm = p.2 := congrArg Prod.snd he
        have hts : touchedSym p.2 sym sub := hsm ▸ hts0
        rw [merge_data_cons]
        have hun : leafP (merge_data (updA p.1 [] (fun sm => foldSyms sm p.2) acc) rest) bp sym sub =
            leafP (updA p.1 [] (fun sm => foldSyms sm p.2) acc) bp sym sub :=
          merge_data_untouched rest _ bp sym sub htr
        rw [hun]
        have hlm : leafP (updA p.1 [] (fun sm => foldSyms sm p.2) acc) bp sym sub =
            (lookupA sym (foldSyms ((lookupA p.1 acc).getD []) p.2)).bind (lookupA sub) := by
          unfold leafP
          rw [lookupA_updA, if_pos hp, Option.some_bind]
        rw [hlm]
        obtain ⟨l', hl', hc', hmm⟩ := foldSyms_touched p.2 ((lookupA p.1 acc).getD []) sym sub hts
        refine ⟨l', hl', hc', ?_⟩
        intro r
        rw [hmm r, hbagc r]
        have hbase : (leafP acc bp sym sub).getD [] =
            ((lookupA sym ((lookupA p.1 acc).getD [])).bind (lookupA sub)).getD [] := by
          rw [hp, leafP_base]
        have hnb : ¬ pageMem rest bp sym sub r := fun hb => htr (pageMem_touched hb)
        rw [hbase]
        tauto
      · exact absurd ⟨sm, ht, hts0⟩ htr

/-- Membership in a leaf after one merge. -/
theorem mem_leaf_merge (acc newData : Rep) (bp sym sub r : Str) :
    r ∈ leafOf (merge_data acc newData) bp sym sub ↔
      (r ∈ leafOf acc bp sym sub ∨ pageMem newData bp sym sub r) := by
  rw [leafOf_eq, leafOf_eq]
  by_cases h : touchedRep newData bp sym sub
  · obtain ⟨l, hl, _, hm⟩ := merge_data_touched newData acc bp sym sub h
    rw [hl]
    exact hm r
  · rw [merge_data_untouched newData acc bp sym sub h]
    have hnp : ¬ pageMem newData bp sym sub r := fun hb => h (pageMem_touched hb)
    tauto

theorem leafOf_nil (bp sym sub : Str) : leafOf [] bp sym sub = [] := rfl

/-- **C2.** Merging is order-independent: for any two page maps `A` and `B`,
merging `A` then `B` into an empty accumulator yields the same repertory as
merging `B` then `A`, where equality means every `(body_part, symptom,
sub_symptom)` leaf holds the same set of remedy names. -/
theorem C2_merge_order_independent (A B : Rep) (bp sym sub r : Str) :
    r ∈ leafOf (merge_data (merge_data [] A) B) bp sym sub ↔
      r ∈ leafOf (merge_data (merge_data [] B) A) bp sym sub := by
  rw [mem_leaf_merge, mem_leaf_merge, mem_leaf_merge, mem_leaf_merge, leafOf_nil]
  simp only [List.not_mem_nil, false_or]
  tauto

theorem countOcc_eq_of_nodup {l : List Str} (d : l.Nodup) (r : Str) :
    countOcc r l = if r ∈ l then 1 else 0 := by
  induction l with
  | nil => simp [countOcc]
  | cons a t ih =>
    obtain ⟨ha, hd⟩ := List.nodup_cons.mp d
    by_cases hra : a = r
    · subst hra
      rw [if_pos (List.mem_cons_self _ _)]
      have ht0 : countOcc a t = 0 := by
        rw [ih hd, if_neg ha]
      have hstep : countOcc a (a :: t) = countOcc a t + 1 := by
        simp [countOcc, List.countP_cons]
      rw [hstep, ht0]
    · rw [show countOcc r (a :: t) = countOcc r t + if a = r then 1 else 0 from by
        simp [countOcc, List.countP_cons]]
      rw [if_neg hra, ih hd]
      by_cases hm : r ∈ t
      · rw [if_pos hm, if_pos (List.mem_cons_of_mem _ hm)]
      · rw [if_neg hm, if_neg (by simp [hra, hm, Ne.symm])]

/-- **C3.** Merging is idempotent: re-merging the same page map `A` changes
no leaf — every remedy occurs in the twice-merged leaf exactly as often as in
the once-merged leaf; and a remedy the page contributes appears exactly once
in the merged leaf (the touched leaf is deduplicated). -/
theorem C3_merge_idempotent (R A : Rep) (bp sym sub r : Str) :
    countOcc r (leafOf (merge_data (merge_data R A) A) bp sym sub) =
      countOcc r (leafOf (merge_data R A) bp sym sub) ∧
    (pageMem A bp sym sub r →
      countOcc r (leafOf (merge_data R A) bp sym sub) = 1) := by
  constructor
  · by_cases h : touchedRep A bp sym sub
    · obtain ⟨l₁, hl₁, ⟨src₁, hc₁⟩, hm₁⟩ := merge_data_touched A R bp sym sub h
      obtain ⟨l₂, hl₂, ⟨src₂, hc₂⟩, hm₂⟩ := merge_data_touched A (merge_data R A) bp sym sub h
      rw [leafOf_eq, leafOf_eq, hl₁, hl₂]
      simp only [Option.getD_some]
      have hmem : ∀ x, x ∈ l₂ ↔ x ∈ l₁ := by
        intro x
        rw [hm₂ x, hl₁]
        simp only [Option.getD_some]
        rw [hm₁ x]
        tauto
      have hnd₁ : l₁.Nodup := by
        rw [hc₁]
        exact canon_nodup src₁
      have hnd₂ : l₂.Nodup := by
        rw [hc₂]
        exact canon_nodup src₂
      rw [countOcc_eq_of_nodup hnd₁, countOcc_eq_of_nodup hnd₂]
      by_cases hx : r ∈ l₁
      · rw [if_pos hx, if_pos ((hmem r).mpr hx)]
      · rw [if_neg hx, if_neg (fun hc => hx ((hmem r).mp hc))]
    · rw [leafOf_eq, leafOf_eq, merge_data_untouched A (merge_data R A) bp sym sub h]
  · intro hpm
    obtain ⟨l₁, hl₁, ⟨src₁, hc₁⟩, hm₁⟩ :=
      merge_data_touched A R bp sym sub (pageMem_touched hpm)
    rw [leafOf_eq, hl₁]
    simp only [Option.getD_some]
    have hnd₁ : l₁.Nodup := by
      rw [hc₁]
      exact canon_nodup src₁
    rw [countOcc_eq_of_nodup hnd₁, if_pos ((hm₁ r).mpr (Or.inr hpm))]

/-- **C3, witness.** Two sources both contribute `Bell` at
`HEAD/PAIN/general`; after re-merging, the leaf still holds `Bell` exactly
once. -/
theorem C3_merge_idempotent_witness :
    countOcc "Bell".toList
        (leafOf (merge_data (merge_data c3A c3A) c3A)
          "HEAD".toList "PAIN".toList "general".toList) =
      countOcc "Bell".toList
        (leafOf (merge_data c3A c3A) "HEAD".toList "PAIN".toList "general".toList) ∧
    countOcc "Bell".toList
        (leafOf (merge_data c3A c3A) "HEAD".toList "PAIN".toList "general".toList) = 1 :=
  ⟨(C3_merge_idempotent c3A c3A "HEAD".toList "PAIN".toList "general".toList "Bell".toList).1,
   (C3_merge_idempotent c3A c3A "HEAD".toList "PAIN".toList "general".toList "Bell".toList).2
     ⟨[("PAIN".toList, [("general".toList, ["Bell".toList])])], by decide,
      [("general".toList, ["Bell".toList])], by decide,
      ["Bell".toList], by decide, by decide⟩⟩

/-! ### The lexicographic order is total and transitive -/

theorem strLe_total (a b : Str) : strLe a b = true ∨ strLe b a = true := by
  induction a generalizing b with
  | nil => exact Or.inl rfl
  | cons x xs ih =>
    cases b with
    | nil => exact Or.inr rfl
    | cons y ys =>
      by_cases h1 : x.toNat < y.toNat
      · left
        simp [strLe, h1]
      · by_cases h2 : y.toNat < x.toNat
        · right
          simp [strLe, h2]
        · rcases ih ys with h | h
          · left
            simp [strLe, h1, h2, h]
          · right
            simp [strLe, h1, h2, h]

theorem strLe_trans {a b c : Str} (hab : strLe a b = true) (hbc : strLe b c = true) :
    strLe a c = true := by
  induction a generalizing b c with
  | nil => rfl
  | cons x xs ih =>
    cases b with
    | nil => simp [strLe] at hab
    | cons y ys =>
      cases c with
      | nil => simp [strLe] at hbc
      | cons z zs =>
        simp only [strLe] at hab hbc ⊢
        by_cases hxy : x.toNat < y.toNat <;> by_cases hyz : y.toNat < z.toNat
        · have hxz : x.toNat < z.toNat := Nat.lt_trans hxy hyz
          simp [hxz]
        · have hzy : ¬ z.toNat < y.toNat := by
            intro hzy
            simp [hyz, hzy] at hbc
          have hxz : x.toNat < z.toNat := by omega
          simp [hxz]
        · have hyx : ¬ y.toNat < x.toNat := by
            intro hyx
            simp [hxy, hyx] at hab
          have hxz : x.toNat < z.toNat := by omega
          simp [hxz]
        · have hyx : ¬ y.toNat < x.toNat := by
            intro hyx
            simp [hxy, hyx] at hab
          have hzy : ¬ z.toNat < y.toNat := by
            intro hzy
            simp [hyz, hzy] at hbc
          have hx : x.toNat = y.toNat := by omega
          have hy : y.toNat = z.toNat := by omega
          have hxz : ¬ x.toNat < z.toNat := by omega
          have hzx : ¬ z.toNat < x.toNat := by omega
          simp only [hxz, hzx, if_neg, if_false]
          simp only [hxy, hyx, if_neg, if_false] at hab
          simp only [hyz, hzy, if_neg, if_false] at hbc
          exact ih hab hbc

theorem canon_sorted (l : List Str) : List.Sorted strLeP (canon l) := by
  haveI : IsTotal Str strLeP := ⟨fun a b => strLe_total a b⟩
  haveI : IsTrans Str strLeP := ⟨fun _ _ _ hab hbc => strLe_trans hab hbc⟩
  exact List.sorted_insertionSort strLeP l.dedup

theorem mem_updA {β : Type} {q : Str × β} {k : Str} {d : β} {f : β → β} {l : List (Str × β)}
    (h : q ∈ updA k d f l) :
    q ∈ l ∨ (q.1 = k ∧ (q.2 = f d ∨ ∃ v, (k, v) ∈ l ∧ q.2 = f v)) := by
  induction l with
  | nil =>
    simp only [updA, List.mem_singleton] at h
    subst h
    exact Or.inr ⟨rfl, Or.inl rfl⟩
  | cons p rest ih =>
    obtain ⟨k', v⟩ := p
    by_cases hp : k' = k
    · rw [updA, if_pos hp] at h
      rcases List.mem_cons.mp h with he | ht
      · subst he
        exact Or.inr ⟨hp, Or.inr ⟨v, by rw [← hp]; exact List.mem_cons_self _ _, rfl⟩⟩
      · exact Or.inl (List.mem_cons_of_mem _ ht)
    · rw [updA, if_neg hp] at h
      rcases List.mem_cons.mp h with he | ht
      · exact Or.inl (he ▸ List.mem_cons_self _ _)
      · rcases ih ht with hm | ⟨hq1, hq2⟩
        · exact Or.inl (List.mem_cons_of_mem _ hm)
        · rcases hq2 with hq2 | ⟨w, hw, hq2⟩
          · exact Or.inr ⟨hq1, Or.inl hq2⟩
          · exact Or.inr ⟨hq1, Or.inr ⟨w, List.mem_cons_of_mem _ hw, hq2⟩⟩

theorem updA_forall {β : Type} (P : β → Prop) {k : Str} {d : β} {f : β → β} {l : List (Str × β)}
    (hl : ∀ p ∈ l, P p.2) (hd : P (f d)) (hf : ∀ v, (k, v) ∈ l → P (f v)) :
    ∀ p ∈ updA k d f l, P p.2 := by
  intro q hq
  rcases mem_updA hq with hmem | ⟨_, hq2 | ⟨v, hv, hq2⟩⟩
  · exact hl q hmem
  · rw [hq2]
    exact hd
  · rw [hq2]
    exact hf v hv

theorem NERep_addMeds {bp sym sub : Str} {meds : List Str} {data : Rep}
    (hd : NERep data) (hm : meds ≠ []) :
    NERep (addMeds bp sym sub meds data) := by
  have hsub : ∀ (sb : SubMap), NESub sb → NESub (updA sub [] (fun l => l ++ meds) sb) := by
    intro sb hsb
    apply updA_forall (P := fun l => l ≠ ([] : Leaf)) hsb
    · intro h
      exact hm (List.append_eq_nil.mp h).2
    · intro v _ h
      exact hm (List.append_eq_nil.mp h).2
  have hsym : ∀ (sm : SymMap), NESym sm →
      NESym (updA sym [] (fun subMap => updA sub [] (fun l => l ++ meds) subMap) sm) := by
    intro sm hsm
    apply updA_forall (P := NESub) hsm
    · exact hsub [] (by intro t ht; simp at ht)
    · intro v hv
      exact hsub v (hsm _ hv)
  unfold addMeds
  apply updA_forall (P := NESym) hd
  · exact hsym [] (by intro q hq; simp at hq)
  · intro v hv
    exact hsym v (hd _ hv)

theorem NERep_processRemainder {curBp curSym : Option Str} {data : Rep} {remainder : Str}
    (hd : NERep data) :
    NERep (processRemainder curBp curSym data remainder) := by
  unfold processRemainder
  cases curBp with
  | none => exact hd
  | some bp =>
    cases curSym with
    | none => exact hd
    | some sym =>
      dsimp only
      split_ifs with h
      · exact hd
      · apply NERep_addMeds hd
        intro hnil
        apply h
        have : (((findMeds (splitRemainder remainder).2).map cleanMed)).isEmpty = true := by
          rw [hnil]
          rfl
        simp [this]

theorem NERep_parseStep {curBp curSym : Option Str} {data : Rep} {line : Str}
    (hd : NERep data) :
    NERep (parseStep curBp curSym data line).2 := by
  unfold parseStep
  cases hs : symptomSplit line with
  | some g => exact NERep_processRemainder hd
  | none =>
    cases curSym with
    | none => exact hd
    | some s =>
      dsimp only
      split_ifs with h
      · exact hd
      · exact NERep_processRemainder hd

theorem NERep_parseLoop (bps : List Str) (curBp curSym : Option Str) (data : Rep)
    (lines : List Str) (hd : NERep data) :
    NERep (parseLoop bps curBp curSym data lines) := by
  induction curBp, curSym, data, lines using parseLoop.induct bps with
  | case1 curBp curSym data => exact hd
  | case2 curBp curSym data line => exact NERep_parseStep hd
  | case3 curBp curSym data line next rest hcond ih =>
    simp only [parseLoop]
    rw [if_pos hcond]
    exact ih hd
  | case4 curBp curSym data line next rest hcond ih =>
    simp only [parseLoop]
    rw [if_neg hcond]
    exact ih (NERep_parseStep hd)

theorem lookupA_mapVal {β γ : Type} (g : β → γ) (k : Str) (l : List (Str × β)) :
    lookupA k (l.map (fun p => (p.1, g p.2))) = (lookupA k l).map g := by
  induction l with
  | nil => rfl
  | cons p rest ih =>
    by_cases hp : p.1 = k <;> simp [lookupA, hp, ih]

theorem leafP_cleanRep (R : Rep) (bp sym sub : Str) :
    leafP (cleanRep R) bp sym sub = (leafP R bp sym sub).map canon := by
  unfold leafP cleanRep
  rw [lookupA_mapVal]
  cases h1 : lookupA bp R with
  | none => rfl
  | some sm =>
    simp only [Option.map_some', Option.some_bind]
    rw [lookupA_mapVal]
    cases h2 : lookupA sym sm with
    | none => rfl
    | some sb =>
      simp only [Option.map_some', Option.some_bind]
      rw [lookupA_mapVal]

theorem NERep_leafP {R : Rep} {bp sym sub : Str} {l : Leaf}
    (hne : NERep R) (h : leafP R bp sym sub = some l) : l ≠ [] := by
  unfold leafP at h
  obtain ⟨sm, h1, h'⟩ := Option.bind_eq_some.mp h
  obtain ⟨sb, h2, h3⟩ := Option.bind_eq_some.mp h'
  exact hne _ (lookupA_mem h1) _ (lookupA_mem h2) _ (lookupA_mem h3)

theorem GoodRep_parse (lines bps : List Str) : GoodRep (parse_lines lines bps) := by
  intro bp sym sub l h
  unfold parse_lines at h
  rw [leafP_cleanRep] at h
  obtain ⟨l₀, h₀, rfl⟩ := Option.map_eq_some'.mp h
  have hraw : NERep (parseLoop bps none none [] lines) :=
    NERep_parseLoop bps none none [] lines (by intro p hp; simp at hp)
  exact ⟨canon_ne_nil (NERep_leafP hraw h₀), canon_nodup l₀, canon_sorted l₀⟩

theorem NERep_parse (lines bps : List Str) : NERep (parse_lines lines bps) := by
  intro p hp q hq t ht
  unfold parse_lines cleanRep at hp
  obtain ⟨p₀, hp₀, rfl⟩ := List.mem_map.mp hp
  obtain ⟨q₀, hq₀, rfl⟩ := List.mem_map.mp hq
  obtain ⟨t₀, ht₀, rfl⟩ := List.mem_map.mp ht
  have hraw : NERep (parseLoop bps none none [] lines) :=
    NERep_parseLoop bps none none [] lines (by intro x hx; simp at hx)
  exact canon_ne_nil (hraw _ hp₀ _ hq₀ _ ht₀)

theorem GoodRep_merge {acc newR : Rep} (hg : GoodRep acc) (hne : NERep newR) :
    GoodRep (merge_data acc newR) := by
  intro bp sym sub l h
  by_cases ht : touchedRep newR bp sym sub
  · obtain ⟨l', hl', ⟨src, hc⟩, hm⟩ := merge_data_touched newR acc bp sym sub ht
    have hll : l = l' := by
      rw [h] at hl'
      exact Option.some_inj.mp hl'
    subst hll
    obtain ⟨sm, hmem1, sb, hmem2, meds, hmem3⟩ := ht
    have hmne : meds ≠ [] := hne _ hmem1 _ hmem2 _ hmem3
    obtain ⟨r, hr⟩ := List.exists_mem_of_ne_nil meds hmne
    have hrl : r ∈ l := (hm r).mpr (Or.inr ⟨sm, hmem1, sb, hmem2, meds, hmem3, hr⟩)
    exact ⟨List.ne_nil_of_mem hrl, hc ▸ canon_nodup src, hc ▸ canon_sorted src⟩
  · rw [merge_data_untouched newR acc bp sym sub ht] at h
    exact hg _ _ _ _ h

theorem GoodRep_buildRep (pages : List (List Str × List Str)) : GoodRep (buildRep pages) := by
  have hstep : ∀ (ps : List (List Str × List Str)) (acc : Rep), GoodRep acc →
      GoodRep (ps.foldl (fun acc pg => merge_data acc (parse_lines pg.1 pg.2)) acc) := by
    intro ps
    induction ps with
    | nil => exact fun acc h => h
    | cons pg rest ih =>
      intro acc h
      exact ih _ (GoodRep_merge h (NERep_parse pg.1 pg.2))
  exact hstep pages [] (by intro bp sym sub l h; simp [leafP, lookupA] at h)

/-- **C4.** After parsing any page, and after any sequence of merges of
parser outputs into an (initially empty) accumulator, every present
`(body_part, symptom, sub_symptom)` leaf holds a nonempty, duplicate-free,
lexicographically sorted list of remedy names. -/
theorem C4_leaf_invariant :
    (∀ lines bps bp sym sub l, leafP (parse_lines lines bps) bp sym sub = some l →
        l ≠ [] ∧ l.Nodup ∧ List.Sorted strLeP l) ∧
    (∀ pages bp sym sub l, leafP (buildRep pages) bp sym sub = some l →
        l ≠ [] ∧ l.Nodup ∧ List.Sorted strLeP l) :=
  ⟨fun lines bps _ _ _ _ h => GoodRep_parse lines bps _ _ _ _ h,
   fun pages _ _ _ _ h => GoodRep_buildRep pages _ _ _ _ h⟩

/-- **C1, counterexample.** On the Scenario 1 page lines the parser does
*not* return the repertory with sub-symptom key `"throbbing, worse motion"`:
the symptom regex captures only the upper-case run `PAIN`, so the remainder
begins with the colon, `split(':', 1)` produces an empty left side, and the
sub-symptom falls back to `"general"`. -/
theorem C1_counterexample :
    parse_lines c1Lines c1Bps ≠
      [("HEAD".toList, [("PAIN".toList,
        [("throbbing, worse motion".toList, ["Bell".toList, "Nux-v".toList])])])] := by
  decide

/-- **C1, amended.** For the Scenario 1 page lines with known body parts
`HEAD`, the parser returns exactly
`HEAD ↦ PAIN ↦ general ↦ [Bell, Nux-v]`: the sub-symptom key is
`"general"` (the text between the two colons is discarded into the medicine
scan, where `throbbing,` and `motion:` do not match the remedy-token
pattern), and the remedy tokens are period-stripped and capitalized. -/
theorem C1_amended_parse_scenario :
    parse_lines c1Lines c1Bps =
      [("HEAD".toList, [("PAIN".toList,
        [("general".toList, ["Bell".toList, "Nux-v".toList])])])] := by
  decide

/-- **C4, witness.** The Scenario 1 page leaf instantiates the invariant. -/
theorem C4_leaf_invariant_witness :
    leafP (parse_lines c1Lines c1Bps) "HEAD".toList "PAIN".toList "general".toList =
      some ["Bell".toList, "Nux-v".toList] ∧
    (["Bell".toList, "Nux-v".toList] ≠ ([] : Leaf) ∧
      (["Bell".toList, "Nux-v".toList] : Leaf).Nodup ∧
      List.Sorted strLeP ["Bell".toList, "Nux-v".toList]) :=
  ⟨by decide,
   C4_leaf_invariant.1 c1Lines c1Bps "HEAD".toList "PAIN".toList "general".toList
     ["Bell".toList, "Nux-v".toList] (by decide)⟩

theorem scoreOf_bump (x loc : Str) (st : ScoreSt) (r : Str) :
    scoreOf (bump x loc st) r = scoreOf st r + (if x = r then 1 else 0) := by
  unfold scoreOf bump
  dsimp only
  rw [lookupA_updA]
  by_cases h : x = r
  · rw [if_pos h, if_pos h, Option.getD_some, h]
  · rw [if_neg h, if_neg h, Nat.add_zero]

theorem locsOf_bump (x loc : Str) (st : ScoreSt) (r : Str) :
    locsOf (bump x loc st) r = locsOf st r ++ (if x = r then [loc] else []) := by
  unfold locsOf bump
  dsimp only
  rw [lookupA_updA]
  by_cases h : x = r
  · rw [if_pos h, if_pos h, Option.getD_some, h]
  · rw [if_neg h, if_neg h, List.append_nil]

theorem countOcc_cons (r x : Str) (t : List Str) :
    countOcc r (x :: t) = countOcc r t + (if x = r then 1 else 0) := by
  simp [countOcc, List.countP_cons]

theorem scoreOf_bumpLeaf (loc : Str) (leaf : List Str) (st : ScoreSt) (r : Str) :
    scoreOf (bumpLeaf loc leaf st) r = scoreOf st r + countOcc r leaf := by
  induction leaf generalizing st with
  | nil => simp [bumpLeaf, countOcc]
  | cons x t ih =>
    rw [show bumpLeaf loc (x :: t) st = bumpLeaf loc t (bump x loc st) from rfl, ih,
        scoreOf_bump, countOcc_cons]
    omega

theorem locsOf_bumpLeaf (loc : Str) (leaf : List Str) (st : ScoreSt) (r : Str) :
    locsOf (bumpLeaf loc leaf st) r = locsOf st r ++ List.replicate (countOcc r leaf) loc := by
  induction leaf generalizing st with
  | nil => simp [bumpLeaf, countOcc]
  | cons x t ih =>
    rw [show bumpLeaf loc (x :: t) st = bumpLeaf loc t (bump x loc st) from rfl, ih,
        locsOf_bump, countOcc_cons]
    by_cases h : x = r
    · rw [if_pos h, if_pos h, List.append_assoc, List.singleton_append, ← List.replicate_succ]
    · rw [if_neg h, if_neg h, Nat.add_zero, List.append_nil]

theorem scoreOf_symFold (symsMap : List (Str × List Str)) (bp : Str) (S : List Str)
    (st : ScoreSt) (r : Str) :
    scoreOf (S.foldl (fun st sym =>
      match lookupA sym symsMap with
      | none => st
      | some leaf => bumpLeaf (mkLoc bp sym) leaf st) st) r =
    scoreOf st r + (S.map (fun sym => countOcc r ((lookupA sym symsMap).getD []))).sum := by
  induction S generalizing st with
  | nil => simp
  | cons sym rest ih =>
    rw [List.foldl_cons, ih]
    cases h : lookupA sym symsMap with
    | none =>
      simp only [h, List.map_cons, List.sum_cons, Option.getD_none]
      have h0 : countOcc r [] = 0 := rfl
      omega
    | some leaf =>
      simp only [h, List.map_cons, List.sum_cons, Option.getD_some, scoreOf_bumpLeaf]
      omega

theorem locsOf_symFold (symsMap : List (Str × List Str)) (bp : Str) (S : List Str)
    (st : ScoreSt) (r : Str) :
    locsOf (S.foldl (fun st sym =>
      match lookupA sym symsMap with
      | none => st
      | some leaf => bumpLeaf (mkLoc bp sym) leaf st) st) r =
    locsOf st r ++ (S.map (fun sym =>
      List.replicate (countOcc r ((lookupA sym symsMap).getD [])) (mkLoc bp sym))).flatten := by
  induction S generalizing st with
  | nil => simp
  | cons sym rest ih =>
    rw [List.foldl_cons, ih]
    cases h : lookupA sym symsMap with
    | none =>
      simp only [h, List.map_cons, List.flatten_cons, Option.getD_none]
      have h0 : countOcc r [] = 0 := rfl
      rw [h0, List.replicate_zero, List.nil_append]
    | some leaf =>
      simp only [h, List.map_cons, List.flatten_cons, Option.getD_some, locsOf_bumpLeaf,
        List.append_assoc]

theorem leafList_of_lookup_none {P : Rep2} {bp : Str} (h : lookupA bp P = none) (sym : Str) :
    leafList P bp sym = [] := by
  unfold leafList
  rw [h]
  rfl

theorem leafList_of_lookup_some {P : Rep2} {bp : Str} {symsMap : List (Str × List Str)}
    (h : lookupA bp P = some symsMap) (sym : Str) :
    leafList P bp sym = (lookupA sym symsMap).getD [] := by
  unfold leafList
  rw [h]
  rfl

theorem scoreOf_loop1 (P : Rep2) (B S : List Str) (st : ScoreSt) (r : Str) :
    scoreOf (loop1 P B S st) r = scoreOf st r + pairScore P B S r := by
  unfold loop1 pairScore
  induction B generalizing st with
  | nil => simp
  | cons bp rest ih =>
    rw [List.foldl_cons, List.map_cons, List.sum_cons]
    cases h : lookupA bp P with
    | none =>
      simp only [h]
      rw [ih]
      have hz : (S.map (fun sym => countOcc r (leafList P bp sym))).sum = 0 := by
        clear ih
        induction S with
        | nil => rfl
        | cons sym srest ihS =>
          rw [List.map_cons, List.sum_cons, leafList_of_lookup_none h, ihS]
          rfl
      omega
    | some symsMap =>
      simp only [h]
      rw [ih, scoreOf_symFold]
      have he : (S.map (fun sym => countOcc r ((lookupA sym symsMap).getD []))).sum =
          (S.map (fun sym => countOcc r (leafList P bp sym))).sum := by
        clear ih
        induction S with
        | nil => rfl
        | cons sym srest ihS =>
          rw [List.map_cons, List.map_cons, List.sum_cons, List.sum_cons,
            leafList_of_lookup_some h, ihS]
      omega

theorem locsOf_loop1 (P : Rep2) (B S : List Str) (st : ScoreSt) (r : Str) :
    locsOf (loop1 P B S st) r = locsOf st r ++ pairLocs P B S r := by
  unfold loop1 pairLocs
  induction B generalizing st with
  | nil => simp
  | cons bp rest ih =>
    rw [List.foldl_cons, List.map_cons, List.flatten_cons]
    cases h : lookupA bp P with
    | none =>
      simp only [h]
      rw [ih]
      have hz : (S.map (fun sym =>
          List.replicate (countOcc r (leafList P bp sym)) (mkLoc bp sym))).flatten = [] := by
        clear ih
        induction S with
        | nil => rfl
        | cons sym srest ihS =>
          rw [List.map_cons, List.flatten_cons, leafList_of_lookup_none h, ihS]
          rfl
      rw [hz, List.nil_append]
    | some symsMap =>
      simp only [h]
      rw [ih, locsOf_symFold]
      have he : (S.map (fun sym =>
          List.replicate (countOcc r ((lookupA sym symsMap).getD [])) (mkLoc bp sym))).flatten =
          (S.map (fun sym =>
            List.replicate (countOcc r (leafList P bp sym)) (mkLoc bp sym))).flatten := by
        clear ih
        induction S with
        | nil => rfl
        | cons sym srest ihS =>
          rw [List.map_cons, List.map_cons, List.flatten_cons, List.flatten_cons,
            leafList_of_lookup_some h, ihS]
      rw [he, List.append_assoc]

theorem foldl_id {α σ : Type} (f : σ → α → σ) (st : σ) (l : List α)
    (h : ∀ x ∈ l, f st x = st) : l.foldl f st = st := by
  induction l with
  | nil => rfl
  | cons x t ih =>
    rw [List.foldl_cons, h x (List.mem_cons_self _ _)]
    exact ih fun y hy => h y (List.mem_cons_of_mem _ hy)

theorem loop2_noop (P : Rep2) (I : SymIdx) (B S : List Str) (st : ScoreSt)
    (hpost : ∀ bp sym, bp ∈ B → sym ∈ S → ∀ r, r ∈ leafList P bp sym →
      mkLoc bp sym ∈ locsOf st r) :
    loop2 P I B S st = st := by
  unfold loop2
  apply foldl_id
  intro sym hsym
  apply foldl_id
  intro bp _
  by_cases hB : bp ∈ B
  · rw [if_pos hB]
    cases h : lookupA sym ((lookupA bp P).getD []) with
    | none => rfl
    | some leaf =>
      apply foldl_id
      intro r hr
      have hleaf : leafList P bp sym = leaf := by
        unfold leafList
        rw [h]
        rfl
      have hmem : mkLoc bp sym ∈ locsOf st r := hpost bp sym hB hsym r (hleaf ▸ hr)
      have h1 : ¬ lookupA r st.locs = none := by
        intro hn
        unfold locsOf at hmem
        rw [hn] at hmem
        simp at hmem
      rw [if_neg]
      rintro (hc | hc)
      · exact h1 hc
      · exact hc hmem
  · rw [if_neg hB]

theorem scoreOf_queryState (P : Rep2) (I : SymIdx) (B S : List Str) (r : Str) :
    scoreOf (queryState P I B S) r = pairScore P B S r := by
  unfold queryState
  rw [loop2_noop]
  · rw [scoreOf_loop1, show scoreOf ⟨[], []⟩ r = 0 from rfl, Nat.zero_add]
  · intro bp sym hbp hsym r' hr'
    rw [locsOf_loop1]
    rw [show locsOf ⟨[], []⟩ r' = [] from rfl, List.nil_append]
    unfold pairLocs
    apply List.mem_flatten.mpr
    refine ⟨(S.map (fun sym =>
      List.replicate (countOcc r' (leafList P bp sym)) (mkLoc bp sym))).flatten,
      List.mem_map.mpr ⟨bp, hbp, rfl⟩, ?_⟩
    apply List.mem_flatten.mpr
    refine ⟨List.replicate (countOcc r' (leafList P bp sym)) (mkLoc bp sym),
      List.mem_map.mpr ⟨sym, hsym, rfl⟩, ?_⟩
    apply List.mem_replicate.mpr
    refine ⟨?_, rfl⟩
    have hpos : 0 < countOcc r' (leafList P bp sym) := by
      apply List.countP_pos_iff.mpr
      exact ⟨r', hr', by simp⟩
    omega

theorem locsOf_queryState (P : Rep2) (I : SymIdx) (B S : List Str) (r : Str) :
    locsOf (queryState P I B S) r = pairLocs P B S r := by
  unfold queryState
  rw [loop2_noop]
  · rw [locsOf_loop1, show locsOf ⟨[], []⟩ r = [] from rfl, List.nil_append]
  · intro bp sym hbp hsym r' hr'
    rw [locsOf_loop1]
    rw [show locsOf ⟨[], []⟩ r' = [] from rfl, List.nil_append]
    unfold pairLocs
    apply List.mem_flatten.mpr
    refine ⟨(S.map (fun sym =>
      List.replicate (countOcc r' (leafList P bp sym)) (mkLoc bp sym))).flatten,
      List.mem_map.mpr ⟨bp, hbp, rfl⟩, ?_⟩
    apply List.mem_flatten.mpr
    refine ⟨List.replicate (countOcc r' (leafList P bp sym)) (mkLoc bp sym),
      List.mem_map.mpr ⟨sym, hsym, rfl⟩, ?_⟩
    apply List.mem_replicate.mpr
    refine ⟨?_, rfl⟩
    have hpos : 0 < countOcc r' (leafList P bp sym) := by
      apply List.countP_pos_iff.mpr
      exact ⟨r', hr', by simp⟩
    omega

theorem mem_keys_updA {β : Type} {x k : Str} {d : β} {f : β → β} {l : List (Str × β)} :
    x ∈ (updA k d f l).map Prod.fst ↔ (x ∈ l.map Prod.fst ∨ x = k) := by
  induction l with
  | nil => simp [updA]
  | cons p rest ih =>
    obtain ⟨k', v⟩ := p
    by_cases hp : k' = k
    · subst hp
      rw [updA, if_pos rfl]
      simp only [List.map_cons, List.mem_cons]
      tauto
    · rw [updA, if_neg hp]
      simp only [List.map_cons, List.mem_cons, ih]
      tauto

theorem keys_updA_nodup {β : Type} {k : Str} {d : β} {f : β → β} {l : List (Str × β)}
    (h : (l.map Prod.fst).Nodup) : ((updA k d f l).map Prod.fst).Nodup := by
  induction l with
  | nil => simp [updA]
  | cons p rest ih =>
    obtain ⟨k', v⟩ := p
    rw [List.map_cons, List.nodup_cons] at h
    by_cases hp : k' = k
    · rw [updA, if_pos hp, List.map_cons]
      exact List.nodup_cons.mpr h
    · rw [updA, if_neg hp, List.map_cons]
      apply List.nodup_cons.mpr
      refine ⟨?_, ih h.2⟩
      intro hmem
      rcases mem_keys_updA.mp hmem with hm | hm
      · exact h.1 hm
      · exact hp hm

theorem KeysOK_bump {st : ScoreSt} (h : KeysOK st) (x loc : Str) : KeysOK (bump x loc st) :=
  ⟨keys_updA_nodup h.1, keys_updA_nodup h.2⟩

theorem foldl_preserve {α σ : Type} (Q : σ → Prop) (f : σ → α → σ)
    (hstep : ∀ st x, Q st → Q (f st x)) :
    ∀ (l : List α) (st : σ), Q st → Q (l.foldl f st) := by
  intro l
  induction l with
  | nil => exact fun st h => h
  | cons x t ih => exact fun st h => ih _ (hstep st x h)

theorem KeysOK_bumpLeaf {st : ScoreSt} (h : KeysOK st) (loc : Str) (leaf : List Str) :
    KeysOK (bumpLeaf loc leaf st) :=
  foldl_preserve KeysOK _ (fun _ x hst => KeysOK_bump hst x loc) leaf st h

theorem KeysOK_loop1 (P : Rep2) (B S : List Str) {st : ScoreSt} (h : KeysOK st) :
    KeysOK (loop1 P B S st) := by
  unfold loop1
  apply foldl_preserve KeysOK _ ?_ B st h
  intro st bp hst
  cases lookupA bp P with
  | none => exact hst
  | some symsMap =>
    apply foldl_preserve KeysOK _ ?_ S st hst
    intro st sym hst
    cases lookupA sym symsMap with
    | none => exact hst
    | some leaf => exact KeysOK_bumpLeaf hst _ leaf

theorem KeysOK_queryState (P : Rep2) (I : SymIdx) (B S : List Str) :
    KeysOK (queryState P I B S) := by
  have h1 : KeysOK (loop1 P B S ⟨[], []⟩) :=
    KeysOK_loop1 P B S ⟨List.nodup_nil, List.nodup_nil⟩
  unfold queryState
  rw [loop2_noop]
  · exact h1
  · intro bp sym hbp hsym r hr
    rw [locsOf_loop1, show locsOf ⟨[], []⟩ r = [] from rfl, List.nil_append]
    unfold pairLocs
    apply List.mem_flatten.mpr
    refine ⟨(S.map (fun sym =>
      List.replicate (countOcc r (leafList P bp sym)) (mkLoc bp sym))).flatten,
      List.mem_map.mpr ⟨bp, hbp, rfl⟩, ?_⟩
    apply List.mem_flatten.mpr
    refine ⟨List.replicate (countOcc r (leafList P bp sym)) (mkLoc bp sym),
      List.mem_map.mpr ⟨sym, hsym, rfl⟩, ?_⟩
    apply List.mem_replicate.mpr
    refine ⟨?_, rfl⟩
    have hpos : 0 < countOcc r (leafList P bp sym) := by
      apply List.countP_pos_iff.mpr
      exact ⟨r, hr, by simp⟩
    omega

/-! ### Reading a remedy's score off the result -/

theorem lookupA_of_mem_nodup {β : Type} {k : Str} {v : β} {l : List (Str × β)}
    (h : (l.map Prod.fst).Nodup) (hm : (k, v) ∈ l) : lookupA k l = some v := by
  induction l with
  | nil => simp at hm
  | cons p rest ih =>
    obtain ⟨k', w⟩ := p
    rw [List.map_cons, List.nodup_cons] at h
    rcases List.mem_cons.mp hm with he | ht
    · have h1 : k = k' := congrArg Prod.fst he
      have h2 : v = w := congrArg Prod.snd he
      rw [lookupA, if_pos h1.symm, h2]
    · have hk : k' ≠ k := by
        intro hkk
        subst hkk
        exact h.1 (List.mem_map.mpr ⟨(k', v), ht, rfl⟩)
      rw [lookupA, if_neg hk]
      exact ih h.2 ht

theorem lookupA_eq_none_iff {β : Type} {k : Str} {l : List (Str × β)} :
    lookupA k l = none ↔ k ∉ l.map Prod.fst := by
  induction l with
  | nil =>
    constructor
    · intro _ h
      simp at h
    · intro _
      rfl
  | cons p rest ih =>
    obtain ⟨k', v⟩ := p
    rw [List.map_cons, List.mem_cons]
    by_cases hp : k' = k
    · subst hp
      rw [lookupA, if_pos rfl]
      constructor
      · intro h
        exact absurd h (Option.some_ne_none v)
      · intro h
        exact absurd (Or.inl rfl) h
    · rw [lookupA, if_neg hp, ih]
      constructor
      · intro h hor
        rcases hor with he | hm
        · exact hp he.symm
        · exact h hm
      · intro h hm
        exact h (Or.inr hm)

theorem lookupA_perm {β : Type} {l l' : List (Str × β)} (hp : l.Perm l')
    (h : (l.map Prod.fst).Nodup) (k : Str) : lookupA k l = lookupA k l' := by
  have h' : (l'.map Prod.fst).Nodup := ((hp.map Prod.fst).nodup_iff).mp h
  cases hl : lookupA k l with
  | some v => exact (lookupA_of_mem_nodup h' (hp.mem_iff.mp (lookupA_mem hl))).symm
  | none =>
    symm
    rw [lookupA_eq_none_iff] at hl ⊢
    intro hk
    exact hl ((hp.map Prod.fst).mem_iff.mpr hk)

theorem lookupA_eq_find? {β : Type} (k : Str) (l : List (Str × β)) :
    lookupA k l = (l.find? (fun p => decide (p.1 = k))).map Prod.snd := by
  induction l with
  | nil => rfl
  | cons p rest ih =>
    obtain ⟨k', v⟩ := p
    by_cases hp : k' = k
    · subst hp
      simp [lookupA, List.find?_cons]
    · simp [lookupA, List.find?_cons, hp, ih]

/-- Every entry of the result reports its remedy's loop score and loop
location list. -/
theorem mem_find_entries {P : Rep2} {I : SymIdx} {B S : List Str} {e : Entry}
    (h : e ∈ find_common_remedies P I B S) :
    e.score = pairScore P B S e.name ∧ e.locs = pairLocs P B S e.name := by
  unfold find_common_remedies at h
  split_ifs at h with hemp
  · simp at h
  · obtain ⟨p, hp, rfl⟩ := List.mem_map.mp h
    have hpm : p ∈ (queryState P I B S).scores :=
      (List.mem_insertionSort scoreDesc).mp hp
    have hk : KeysOK (queryState P I B S) := KeysOK_queryState P I B S
    have hlk : lookupA p.1 (queryState P I B S).scores = some p.2 :=
      lookupA_of_mem_nodup hk.1 hpm
    constructor
    · have : scoreOf (queryState P I B S) p.1 = p.2 := by
        unfold scoreOf
        rw [hlk]
        rfl
      rw [← scoreOf_queryState P I B S p.1, this]
    · exact (locsOf_queryState P I B S p.1).symm ▸ rfl

theorem resultScore_find (P : Rep2) (I : SymIdx) (B S : List Str) (r : Str) :
    resultScore (find_common_remedies P I B S) r = pairScore P B S r := by
  unfold resultScore find_common_remedies
  split_ifs with hemp
  · have hB : B = [] := by
      cases B with
      | nil => rfl
      | cons x t => simp at hemp
    subst hB
    rfl
  · rw [List.find?_map]
    have hcomp : ((fun e : Entry => decide (e.name = r)) ∘
        (fun p : Str × Nat =>
          ({ name := p.1, score := p.2,
             locs := (lookupA p.1 (queryState P I B S).locs).getD [],
             bodyParts := listSet (((lookupA p.1 (queryState P I B S).locs).getD []).map splitColon0),
             symptoms := listSet (((lookupA p.1 (queryState P I B S).locs).getD []).map splitColon1) } : Entry))) =
        fun p : Str × Nat => decide (p.1 = r) := rfl
    rw [hcomp, Option.map_map]
    have hscore : ((List.insertionSort scoreDesc (queryState P I B S).scores).find?
        (fun p : Str × Nat => decide (p.1 = r))).map Prod.snd =
        lookupA r (List.insertionSort scoreDesc (queryState P I B S).scores) :=
      (lookupA_eq_find? r _).symm
    have hentry : (Entry.score ∘ fun p : Str × Nat =>
        ({ name := p.1, score := p.2,
           locs := (lookupA p.1 (queryState P I B S).locs).getD [],
           bodyParts := listSet (((lookupA p.1 (queryState P I B S).locs).getD []).map splitColon0),
           symptoms := listSet (((lookupA p.1 (queryState P I B S).locs).getD []).map splitColon1) } : Entry)) =
        (Prod.snd : Str × Nat → Nat) := rfl
    rw [hentry, hscore, lookupA_perm (List.perm_insertionSort scoreDesc _)
      (((List.perm_insertionSort scoreDesc _).map Prod.fst).nodup_iff.mpr
        (KeysOK_queryState P I B S).1) r]
    rw [← scoreOf_queryState P I B S r]
    rfl

theorem pairScore_mono (P : Rep2) (B S Sl : List Str) (hS : S.Nodup) (hSl : Sl.Nodup)
    (hsub : S ⊆ Sl) (r : Str) : pairScore P B S r ≤ pairScore P B Sl r := by
  unfold pairScore
  induction B with
  | nil => exact Nat.le_refl 0
  | cons bp rest ih =>
    rw [List.map_cons, List.sum_cons, List.map_cons, List.sum_cons]
    apply Nat.add_le_add _ ih
    rw [← List.sum_toFinset _ hS, ← List.sum_toFinset _ hSl]
    apply Finset.sum_le_sum_of_subset
    intro x hx
    rw [List.mem_toFinset] at hx ⊢
    exact hsub hx

theorem pairScore_eq_matching (P : Rep2) (B S : List Str) (r : Str)
    (hleaf : ∀ bp sym, (leafList P bp sym).Nodup) :
    pairScore P B S r = matchingPairCount P B S r := by
  unfold pairScore matchingPairCount queryPairs
  induction B with
  | nil => rfl
  | cons bp rest ih =>
    rw [List.map_cons, List.sum_cons, List.map_cons, List.flatten_cons, List.countP_append, ih]
    have hinner : (S.map (fun sym => countOcc r (leafList P bp sym))).sum =
        (S.map (fun sym => (bp, sym))).countP (fun q => decide (r ∈ leafList P q.1 q.2)) := by
      clear ih
      rw [List.countP_map]
      induction S with
      | nil => rfl
      | cons sym srest ihS =>
        rw [List.map_cons, List.sum_cons, countOcc_eq_of_nodup (hleaf bp sym)]
        by_cases hm : r ∈ leafList P bp sym
        · rw [if_pos hm, List.countP_cons_of_pos _ _ (by simp [hm]), ihS]
          omega
        · rw [if_neg hm, List.countP_cons_of_neg _ _ (by simp [hm]), ihS]
          omega
    omega

theorem queryPairs_nodup {B S : List Str} (hB : B.Nodup) (hS : S.Nodup) :
    (queryPairs B S).Nodup := by
  unfold queryPairs
  induction B with
  | nil => exact List.nodup_nil
  | cons bp rest ih =>
    rw [List.map_cons, List.flatten_cons]
    obtain ⟨hbp, hrest⟩ := List.nodup_cons.mp hB
    apply List.Nodup.append
    · exact hS.map fun a b hab => congrArg Prod.snd hab
    · exact ih hrest
    · intro x hx1 hx2
      obtain ⟨sym, _, rfl⟩ := List.mem_map.mp hx1
      obtain ⟨lx, hlx, hxl⟩ := List.mem_flatten.mp hx2
      obtain ⟨bpl, hbpl, rfl⟩ := List.mem_map.mp hlx
      obtain ⟨syml, _, he⟩ := List.mem_map.mp hxl
      have hfst : bpl = bp := congrArg Prod.fst he
      exact hbp (hfst ▸ hbpl)

/-- **C5, counterexample.** A processed repertory whose leaf holds `Bell`
twice gives `Bell` the score 2 for the single-pair query
`(body_parts, symptoms) = ([head], [pain])`, while only 1 distinct queried
combination has a leaf containing `Bell`: loop 1 credits each *occurrence*
at a leaf, with no per-location guard. -/
theorem C5_counterexample :
    ((find_common_remedies (process_data_structure c5raw).processed
        (process_data_structure c5raw).symIdx
        ["head".toList] ["pain".toList]).map (fun e => (e.name, e.score)) =
      [("Bell".toList, 2)]) ∧
    matchingPairCount (process_data_structure c5raw).processed
      ["head".toList] ["pain".toList] "Bell".toList = 1 := by
  decide

/-- **C5, amended.** For every processed repertory *whose leaves are
duplicate-free* and every duplicate-free query lists (sets) of body parts
and symptoms, every entry of `find_common_remedies` scores its remedy with
exactly the number of distinct queried `(body_part, symptom)` combinations
whose leaf contains the remedy; with duplicate-free inputs `queryPairs B S`
enumerates each combination exactly once. -/
theorem C5_score_counts_distinct_pairs (P : Rep2) (I : SymIdx) (B S : List Str)
    (hB : B.Nodup) (hS : S.Nodup)
    (hleaf : ∀ p ∈ P, ∀ q ∈ p.2, (q.2 : List Str).Nodup) :
    (∀ e ∈ find_common_remedies P I B S,
      e.score = matchingPairCount P B S e.name) ∧ (queryPairs B S).Nodup := by
  have hleafL : ∀ bp sym, (leafList P bp sym).Nodup := by
    intro bp sym
    unfold leafList
    cases h1 : lookupA bp P with
    | none => exact List.nodup_nil
    | some m =>
      simp only [Option.getD_some]
      cases h2 : lookupA sym m with
      | none => exact List.nodup_nil
      | some leaf => exact hleaf _ (lookupA_mem h1) _ (lookupA_mem h2)
  constructor
  · intro e he
    rw [(mem_find_entries he).1]
    exact pairScore_eq_matching P B S e.name hleafL
  · exact queryPairs_nodup hB hS

/-- **C8.** Query monotonicity: enlarging the symptom set never decreases
any remedy's reported score. -/
theorem C8_query_monotonic (P : Rep2) (I : SymIdx) (B S Sl : List Str)
    (hS : S.Nodup) (hSl : Sl.Nodup) (hsub : S ⊆ Sl) (r : Str) :
    resultScore (find_common_remedies P I B S) r ≤
      resultScore (find_common_remedies P I B Sl) r := by
  rw [resultScore_find, resultScore_find]
  exact pairScore_mono P B S Sl hS hSl hsub r

theorem pairLocs_length (P : Rep2) (B S : List Str) (r : Str) :
    (pairLocs P B S r).length = pairScore P B S r := by
  unfold pairLocs pairScore
  induction B with
  | nil => rfl
  | cons bp rest ih =>
    rw [List.map_cons, List.flatten_cons, List.length_append, ih,
      List.map_cons, List.sum_cons]
    have hin : (S.map (fun sym =>
        List.replicate (countOcc r (leafList P bp sym)) (mkLoc bp sym))).flatten.length =
        (S.map (fun sym => countOcc r (leafList P bp sym))).sum := by
      clear ih
      induction S with
      | nil => rfl
      | cons sym srest ihS =>
        rw [List.map_cons, List.flatten_cons, List.length_append, List.map_cons,
          List.sum_cons, List.length_replicate, ihS]
    omega

/-- **C9.** In every result of `find_common_remedies`, every entry's score
equals the length of its reported list of matched location strings. -/
theorem C9_score_eq_matches_length (P : Rep2) (I : SymIdx) (B S : List Str) :
    ∀ e ∈ find_common_remedies P I B S, e.score = e.locs.length := by
  intro e he
  obtain ⟨hs, hl⟩ := mem_find_entries he
  rw [hs, hl, pairLocs_length]

/-- **C5, witness.** The amended claim instantiated on a duplicate-free
repertory. -/
theorem C5_score_counts_distinct_pairs_witness :
    (["head".toList] : List Str).Nodup ∧ (["pain".toList] : List Str).Nodup ∧
    (∀ p ∈ (process_data_structure c9raw).processed, ∀ q ∈ p.2, (q.2 : List Str).Nodup) ∧
    (∀ e ∈ find_common_remedies (process_data_structure c9raw).processed
        (process_data_structure c9raw).symIdx ["head".toList] ["pain".toList],
      e.score = matchingPairCount (process_data_structure c9raw).processed
        ["head".toList] ["pain".toList] e.name) ∧
    (queryPairs ["head".toList] ["pain".toList]).Nodup :=
  ⟨by decide, by decide, by decide,
   (C5_score_counts_distinct_pairs (process_data_structure c9raw).processed
      (process_data_structure c9raw).symIdx ["head".toList] ["pain".toList]
      (by decide) (by decide) (by decide)).1,
   (C5_score_counts_distinct_pairs (process_data_structure c9raw).processed
      (process_data_structure c9raw).symIdx ["head".toList] ["pain".toList]
      (by decide) (by decide) (by decide)).2⟩

/-- **C8, witness.** Adding the symptom `pain` to the empty query set does
not decrease the score of `Bell`. -/
theorem C8_query_monotonic_witness :
    resultScore (find_common_remedies (process_data_structure c9raw).processed
      (process_data_structure c9raw).symIdx ["head".toList] []) "Bell".toList ≤
    resultScore (find_common_remedies (process_data_structure c9raw).processed
      (process_data_structure c9raw).symIdx ["head".toList] ["pain".toList]) "Bell".toList :=
  C8_query_monotonic (process_data_structure c9raw).processed
    (process_data_structure c9raw).symIdx ["head".toList] [] ["pain".toList]
    (by decide) (by decide) (fun _ hx => absurd hx (List.not_mem_nil _)) "Bell".toList

/-- **C9, witness.** The `Bell` entry of the duplicated-leaf query reports
score 2 and two matched locations. -/
theorem C9_score_eq_matches_length_witness :
    (⟨"Bell".toList, 2, ["head:pain".toList, "head:pain".toList],
        ["head".toList], ["pain".toList]⟩ : Entry) ∈
      find_common_remedies (process_data_structure c5raw).processed
        (process_data_structure c5raw).symIdx ["head".toList] ["pain".toList] ∧
    (2 : Nat) = (["head:pain".toList, "head:pain".toList] : List Str).length :=
  ⟨by decide,
   C9_score_eq_matches_length (process_data_structure c5raw).processed
     (process_data_structure c5raw).symIdx ["head".toList] ["pain".toList]
     ⟨"Bell".toList, 2, ["head:pain".toList, "head:pain".toList],
       ["head".toList], ["pain".toList]⟩ (by decide)⟩

/-! ### Claim C6: get_remedy_details mutates the remedy index -/

/-- **C6.** Looking up a remedy that occurs nowhere in the data through
`get_remedy_details` does *not* leave `remedy_index` unchanged: line 230
reads `len(self.remedy_index[remedy])` from the `defaultdict(set)`, which
inserts the missing key with an empty set.  The index gains the entry
`Xyz ↦ ∅`. -/
theorem C6_get_remedy_details_mutates_index :
    (get_remedy_details (process_data_structure c5raw).remIdx "Xyz".toList).2 ≠
      (process_data_structure c5raw).remIdx ∧
    (get_remedy_details (process_data_structure c5raw).remIdx "Xyz".toList).2 =
      (process_data_structure c5raw).remIdx ++ [("Xyz".toList, [])] := by
  decide

/-- **C7, counterexample.** `process_data_structure` keeps a body-part key
whose symptom mapping ends up empty: only body parts whose *raw* symptom
dict is empty are skipped, and a symptom whose remedy list is empty is
dropped after `processed[body_part] = ` has already been assigned. -/
theorem C7_counterexample :
    (process_data_structure c7raw).processed = [("head".toList, [])] ∧
    lookupA "head".toList (process_data_structure c7raw).processed = some [] := by
  decide

theorem lookupA_setA {β : Type} (k₀ k : Str) (v : β) (l : List (Str × β)) :
    lookupA k (setA k₀ v l) = if k₀ = k then some v else lookupA k l := by
  induction l with
  | nil =>
    by_cases h : k₀ = k <;> simp [setA, lookupA, h]
  | cons p rest ih =>
    obtain ⟨k', w⟩ := p
    by_cases h1 : k' = k₀
    · subst h1
      by_cases h2 : k' = k <;> simp [setA, lookupA, h2]
    · by_cases h2 : k₀ = k
      · subst h2
        simp [setA, lookupA, h1, ih, Ne.symm h1]
      · by_cases h3 : k' = k
        · subst h3
          simp [setA, lookupA, h1, h2]
        · simp [setA, lookupA, h1, h2, h3, ih]

theorem procSym_keys {bp : Str} {st : ProcOut} {symP : Str × List Str} {k : Str}
    (h : (lookupA k (procSym bp st symP).processed).isSome = true) :
    (lookupA k st.processed).isSome = true ∨ k = bp := by
  unfold procSym at h
  by_cases h1 : symP.2.isEmpty = true
  · rw [if_pos h1] at h
    exact Or.inl h
  · rw [if_neg h1] at h
    dsimp only at h
    by_cases h2 : (cleanRemedies symP.2).isEmpty = true
    · rw [if_pos h2] at h
      exact Or.inl h
    · rw [if_neg h2] at h
      dsimp only at h
      rw [lookupA_updA] at h
      by_cases hp : bp = k
      · exact Or.inr hp.symm
      · rw [if_neg hp] at h
        exact Or.inl h

theorem procSymFold_keys {bp : Str} {syms : List (Str × List Str)} {st : ProcOut} {k : Str}
    (h : (lookupA k (syms.foldl (procSym bp) st).processed).isSome = true) :
    (lookupA k st.processed).isSome = true ∨ k = bp := by
  induction syms generalizing st with
  | nil => exact Or.inl h
  | cons symP rest ih =>
    rw [List.foldl_cons] at h
    rcases ih h with hin | hbp
    · exact procSym_keys hin
    · exact Or.inr hbp

theorem procBp_keys {st : ProcOut} {bpP : Str × List (Str × List Str)} {k : Str}
    (h : (lookupA k (procBp st bpP).processed).isSome = true) :
    (lookupA k st.processed).isSome = true ∨ (k = bpP.1 ∧ bpP.2 ≠ []) := by
  unfold procBp at h
  split_ifs at h with hemp
  · exact Or.inl h
  · have hne : bpP.2 ≠ [] := by
      intro hnil
      rw [hnil] at hemp
      exact hemp rfl
    rcases procSymFold_keys h with hin | hbp
    · dsimp only at hin
      rw [lookupA_setA] at hin
      by_cases hp : bpP.1 = k
      · exact Or.inr ⟨hp.symm, hne⟩
      · rw [if_neg hp] at hin
        exact Or.inl hin
    · exact Or.inr ⟨hbp, hne⟩

theorem process_keys_aux (raw : Rep2) (st : ProcOut) (bp : Str)
    (h : (lookupA bp (raw.foldl procBp st).processed).isSome = true) :
    (lookupA bp st.processed).isSome = true ∨ ∃ syms, (bp, syms) ∈ raw ∧ syms ≠ [] := by
  induction raw generalizing st with
  | nil => exact Or.inl h
  | cons bpP rest ih =>
    rw [List.foldl_cons] at h
    rcases ih _ h with hin | ⟨syms, hmem, hne⟩
    · rcases procBp_keys hin with hst | ⟨hk, hne⟩
      · exact Or.inl hst
      · refine Or.inr ⟨bpP.2, ?_, hne⟩
        rw [hk]
        exact List.mem_cons_self _ _
    · exact Or.inr ⟨syms, List.mem_cons_of_mem _ hmem, hne⟩

/-- **C7, amended.** Every body-part key present in the output of
`process_data_structure` comes from a raw entry with a *non-empty* raw
symptom mapping (raw-empty body parts are pruned); as `C7_counterexample`
shows, such a key may still map to an empty symptom mapping when all its
raw symptoms are dropped. -/
theorem C7_amended_present_keys_from_nonempty_raw (raw : Rep2) (bp : Str)
    (h : (lookupA bp (process_data_structure raw).processed).isSome = true) :
    ∃ syms, (bp, syms) ∈ raw ∧ syms ≠ [] := by
  rcases process_keys_aux raw ⟨[], [], []⟩ bp h with hin | hex
  · exact absurd hin (by simp [lookupA])
  · exact hex

/-- **C7, witness.** The body part `head` of the duplicate-remedy input is
present in the output and indeed comes from a non-empty raw mapping. -/
theorem C7_amended_witness :
    (lookupA "head".toList (process_data_structure c5raw).processed).isSome = true ∧
    (∃ syms, ("head".toList, syms) ∈ c5raw ∧ syms ≠ []) :=
  ⟨by decide, C7_amended_present_keys_from_nonempty_raw c5raw "head".toList (by decide)⟩

/-! ### Claim C10: the normalizer is idempotent -/

theorem toNat_ofNat_valid {n : Nat} (h : n.isValidChar) : (Char.ofNat n).toNat = n := by
  unfold Char.ofNat
  rw [dif_pos h]
  rfl

theorem lowerChar_fix (c : Char) : lowerChar (lowerChar c) = lowerChar c := by
  unfold lowerChar
  by_cases h : isUpperC c = true
  · rw [if_pos h]
    have hb : 65 ≤ c.toNat ∧ c.toNat ≤ 90 := of_decide_eq_true h
    have hn : (c.toNat + 32).isValidChar := Or.inl (by omega)
    have ht : (Char.ofNat (c.toNat + 32)).toNat = c.toNat + 32 := toNat_ofNat_valid hn
    have hnu : isUpperC (Char.ofNat (c.toNat + 32)) = false := by
      unfold isUpperC
      rw [ht]
      apply decide_eq_false
      omega
    rw [if_neg]
    rw [hnu]
    simp
  · rw [if_neg h, if_neg h]

theorem lowerChar_space : lowerChar ' ' = ' ' := by decide

theorem map_eq_self_of_fix {f : Char → Char} {l : Str} (h : ∀ c ∈ l, f c = c) :
    l.map f = l := by
  induction l with
  | nil => rfl
  | cons c rest ih =>
    rw [List.map_cons, h c (List.mem_cons_self _ _),
      ih fun d hd => h d (List.mem_cons_of_mem _ hd)]

theorem collapseWS_sp_t {c : Char} {rest : Str} (h : isSpC c = true) :
    collapseWS true (c :: rest) = collapseWS true rest := by
  rw [collapseWS, if_pos h, if_pos rfl]

theorem collapseWS_sp_f {c : Char} {rest : Str} (h : isSpC c = true) :
    collapseWS false (c :: rest) = ' ' :: collapseWS true rest := by
  rw [collapseWS, if_pos h, if_neg (by simp)]

theorem collapseWS_nsp {c : Char} {rest : Str} {b : Bool} (h : ¬ isSpC c = true) :
    collapseWS b (c :: rest) = c :: collapseWS false rest := by
  rw [collapseWS, if_neg h]

theorem wsNormB_tail {c : Char} {rest : Str} (h : wsNormB (c :: rest) = true) :
    wsNormB rest = true := by
  cases rest with
  | nil => rfl
  | cons d r => exact (Bool.and_eq_true_iff.mp h).2

theorem wsNormB_head {c : Char} {rest : Str} (h : wsNormB (c :: rest) = true) :
    okSp c = true := by
  cases rest with
  | nil => exact h
  | cons d r => exact (Bool.and_eq_true_iff.mp (Bool.and_eq_true_iff.mp h).1).1

theorem wsNormB_window {c d : Char} {rest : Str} (h : wsNormB (c :: d :: rest) = true) :
    (!(isSpC c) || !(isSpC d)) = true :=
  (Bool.and_eq_true_iff.mp (Bool.and_eq_true_iff.mp h).1).2

theorem collapse_true_headOk (l : Str) : headOk (collapseWS true l) := by
  induction l with
  | nil =>
    intro c h
    cases h
  | cons c rest ih =>
    by_cases h : isSpC c = true
    · intro d hd
      rw [collapseWS_sp_t h] at hd
      exact ih d hd
    · intro d hd
      rw [collapseWS_nsp h] at hd
      rw [show d = c from (Option.some_inj.mp hd).symm]
      exact Bool.eq_false_iff.mpr h

theorem collapse_wsNorm (l : Str) : ∀ b, wsNormB (collapseWS b l) = true := by
  induction l with
  | nil =>
    intro b
    rfl
  | cons c rest ih =>
    intro b
    by_cases h : isSpC c = true
    · cases b with
      | true =>
        rw [collapseWS_sp_t h]
        exact ih true
      | false =>
        rw [collapseWS_sp_f h]
        cases hco : collapseWS true rest with
        | nil => decide
        | cons d r =>
          have hno : wsNormB (d :: r) = true := hco ▸ ih true
          have hdn : isSpC d = false := collapse_true_headOk rest d (by rw [hco]; rfl)
          show ((okSp ' ' && (!(isSpC ' ') || !(isSpC d))) && wsNormB (d :: r)) = true
          rw [hno, hdn]
          decide
    · rw [collapseWS_nsp h]
      have hf : isSpC c = false := Bool.eq_false_iff.mpr h
      cases hco : collapseWS false rest with
      | nil =>
        show okSp c = true
        unfold okSp
        rw [hf]
        rfl
      | cons d r =>
        have hno : wsNormB (d :: r) = true := hco ▸ ih false
        show ((okSp c && (!(isSpC c) || !(isSpC d))) && wsNormB (d :: r)) = true
        unfold okSp
        rw [hf, hno]
        simp

theorem collapse_eq_self (l : Str) (h : wsNormB l = true) :
    collapseWS false l = l ∧ (headOk l → collapseWS true l = l) := by
  induction l with
  | nil => exact ⟨rfl, fun _ => rfl⟩
  | cons c rest ih =>
    obtain ⟨ihF, ihT⟩ := ih (wsNormB_tail h)
    by_cases hsp : isSpC c = true
    · have hc : c = ' ' := by
        have hok : okSp c = true := wsNormB_head h
        unfold okSp at hok
        rw [hsp] at hok
        exact eq_of_beq (by simpa using hok)
      have hro : headOk rest := by
        intro d hd
        cases rest with
        | nil => cases hd
        | cons d' r' =>
          have hdd : d' = d := Option.some_inj.mp hd
          have hw := wsNormB_window h
          rw [hsp] at hw
          simp only [Bool.not_true, Bool.false_or, Bool.not_eq_true'] at hw
          rw [← hdd]
          exact hw
      constructor
      · rw [collapseWS_sp_f hsp, ihT hro, hc]
      · intro hho
        have := hho c rfl
        rw [hsp] at this
        cases this
    · constructor
      · rw [collapseWS_nsp hsp, ihF]
      · intro _
        rw [collapseWS_nsp hsp, ihF]

theorem wsNormB_append_left : ∀ {l u : Str}, wsNormB (l ++ u) = true → wsNormB l = true := by
  intro l
  induction l with
  | nil =>
    intro u _
    rfl
  | cons c rest ih =>
    intro u h
    cases rest with
    | nil =>
      cases u with
      | nil => exact h
      | cons d r =>
        show okSp c = true
        exact wsNormB_head h
    | cons d r =>
      have h1 : okSp c = true := wsNormB_head h
      have h2 : (!(isSpC c) || !(isSpC d)) = true := wsNormB_window h
      have h3 : wsNormB (d :: r) = true := ih (u := u) (wsNormB_tail h)
      show ((okSp c && (!(isSpC c) || !(isSpC d))) && wsNormB (d :: r)) = true
      rw [h1, h2, h3]
      rfl

theorem wsNormB_append_right : ∀ {t l : Str}, wsNormB (t ++ l) = true → wsNormB l = true := by
  intro t
  induction t with
  | nil => exact fun h => h
  | cons c rest ih => exact fun h => ih (wsNormB_tail h)

theorem wsNormB_of_prefix {l u : Str} (h : wsNormB u = true) (hp : l <+: u) :
    wsNormB l = true := by
  obtain ⟨v, rfl⟩ := hp
  exact wsNormB_append_left h

theorem wsNormB_of_suffix {l u : Str} (h : wsNormB u = true) (hs : l <:+ u) :
    wsNormB l = true := by
  obtain ⟨t, rfl⟩ := hs
  exact wsNormB_append_right h

theorem mem_collapseWS {c : Char} : ∀ {l : Str} {b : Bool},
    c ∈ collapseWS b l → c ∈ l ∨ c = ' ' := by
  intro l
  induction l with
  | nil =>
    intro b h
    cases h
  | cons d rest ih =>
    intro b h
    by_cases hd : isSpC d = true
    · cases b with
      | true =>
        rw [collapseWS_sp_t hd] at h
        rcases ih h with hm | he
        · exact Or.inl (List.mem_cons_of_mem _ hm)
        · exact Or.inr he
      | false =>
        rw [collapseWS_sp_f hd] at h
        rcases List.mem_cons.mp h with he | hm
        · exact Or.inr he
        · rcases ih hm with hm' | he'
          · exact Or.inl (List.mem_cons_of_mem _ hm')
          · exact Or.inr he'
    · rw [collapseWS_nsp hd] at h
      rcases List.mem_cons.mp h with he | hm
      · exact Or.inl (he ▸ List.mem_cons_self _ _)
      · rcases ih hm with hm' | he'
        · exact Or.inl (List.mem_cons_of_mem _ hm')
        · exact Or.inr he'

theorem stripPunct_subset {c : Char} {l : Str} (h : c ∈ stripPunct l) : c ∈ l := by
  unfold stripPunct at h
  exact (List.dropWhile_sublist isPunctC).subset
    ((List.rdropWhile_prefix isPunctC _).sublist.subset h)

theorem pyStrip_subset {c : Char} {l : Str} (h : c ∈ pyStrip l) : c ∈ l := by
  unfold pyStrip at h
  exact (List.dropWhile_sublist isSpC).subset
    ((List.rdropWhile_prefix isSpC _).sublist.subset h)

theorem cleanSym_chars (s : Str) : ∀ c ∈ cleanSym s, lowerChar c = c := by
  intro c hc
  have h1 : c ∈ collapseWS false (pyStrip (pyLower s)) := stripPunct_subset hc
  rcases mem_collapseWS h1 with h2 | he
  · have h3 : c ∈ pyLower s := pyStrip_subset h2
    obtain ⟨c₀, _, rfl⟩ := List.mem_map.mp h3
    exact lowerChar_fix c₀
  · rw [he]
    exact lowerChar_space

theorem cleanSym_headOkP (s : Str) :
    ∀ c, (cleanSym s).head? = some c → isPunctC c = false := by
  intro c hc
  have hne : cleanSym s ≠ [] := by
    intro h0
    rw [h0] at hc
    cases hc
  have hpre : cleanSym s <+:
      List.dropWhile isPunctC (collapseWS false (pyStrip (pyLower s))) :=
    List.rdropWhile_prefix isPunctC _
  obtain ⟨v, hv⟩ := hpre
  have hh : (List.dropWhile isPunctC (collapseWS false (pyStrip (pyLower s)))).head? = some c := by
    rw [← hv]
    cases hcs : cleanSym s with
    | nil => exact absurd hcs hne
    | cons a t =>
      rw [hcs] at hc
      show ((a :: t) ++ v).head? = some c
      simpa using hc
  have hm := List.head?_dropWhile_not isPunctC (collapseWS false (pyStrip (pyLower s)))
  rw [hh] at hm
  exact hm

theorem cleanSym_lastOkP (s : Str) (hne : cleanSym s ≠ []) :
    ¬ isPunctC ((cleanSym s).getLast hne) = true :=
  List.rdropWhile_last_not isPunctC _ hne

theorem isSpC_imp_isPunctC {c : Char} (h : isSpC c = true) : isPunctC c = true := by
  unfold isPunctC
  rw [h]
  simp

theorem dropWhile_eq_self_of_headOk {q : Char → Bool} {l : Str}
    (h : ∀ c, l.head? = some c → q c = false) : l.dropWhile q = l := by
  cases l with
  | nil => rfl
  | cons a t =>
    have ha := h a rfl
    rw [List.dropWhile_cons, ha]
    simp

theorem pyStrip_cleanSym (s : Str) : pyStrip (cleanSym s) = cleanSym s := by
  unfold pyStrip
  rw [dropWhile_eq_self_of_headOk (fun c hc => by
    have hp := cleanSym_headOkP s c hc
    by_contra hsp
    rw [isSpC_imp_isPunctC (Bool.of_not_eq_false hsp)] at hp
    cases hp)]
  apply List.rdropWhile_eq_self_iff.mpr
  intro hl hsp
  exact cleanSym_lastOkP s hl (isSpC_imp_isPunctC hsp)

theorem stripPunct_cleanSym (s : Str) : stripPunct (cleanSym s) = cleanSym s := by
  unfold stripPunct
  rw [dropWhile_eq_self_of_headOk (cleanSym_headOkP s)]
  apply List.rdropWhile_eq_self_iff.mpr
  intro hl hp
  exact cleanSym_lastOkP s hl hp

theorem wsNormB_cleanSym (s : Str) : wsNormB (cleanSym s) = true := by
  have h0 : wsNormB (collapseWS false (pyStrip (pyLower s))) = true :=
    collapse_wsNorm _ false
  have h1 : wsNormB (List.dropWhile isPunctC (collapseWS false (pyStrip (pyLower s)))) = true :=
    wsNormB_of_suffix h0 (List.dropWhile_suffix isPunctC)
  exact wsNormB_of_prefix h1 (List.rdropWhile_prefix isPunctC _)

theorem collapseWS_cleanSym (s : Str) : collapseWS false (cleanSym s) = cleanSym s :=
  (collapse_eq_self _ (wsNormB_cleanSym s)).1

theorem pyLower_cleanSym (s : Str) : pyLower (cleanSym s) = cleanSym s :=
  map_eq_self_of_fix (cleanSym_chars s)

theorem cleanSym_idem (s : Str) : cleanSym (cleanSym s) = cleanSym s := by
  show stripPunct (collapseWS false (pyStrip (pyLower (cleanSym s)))) = cleanSym s
  rw [pyLower_cleanSym s, pyStrip_cleanSym s, collapseWS_cleanSym s, stripPunct_cleanSym s]

/-- **C10.** `normalize_symptom_name` is idempotent: normalizing an already
normalized symptom string changes nothing — the cleaning pipeline fixes its
own output, and every `normalizations` value is its own first match. -/
theorem C10_normalize_idempotent (s : Str) :
    normalize_symptom_name (normalize_symptom_name s) = normalize_symptom_name s := by
  have hkeys : ∀ kv ∈ normalizations, normalize_symptom_name kv.2 = kv.2 := by decide
  have hns : ∀ u, normalize_symptom_name u =
      (match normalizations.find? (fun kv => containsSeq kv.1 (cleanSym u)) with
       | some kv => kv.2
       | none => cleanSym u) := fun _ => rfl
  rw [hns s]
  cases hf : normalizations.find? (fun kv => containsSeq kv.1 (cleanSym s)) with
  | some kv => exact hkeys kv (List.mem_of_find?_eq_some hf)
  | none => rw [hns (cleanSym s), cleanSym_idem s, hf]

end Homeopath
